import Mathlib

/-!
Verification of the marine-term-translations self-host platform's two core
pipelines against their natural-language specification.

The development shallowly embeds the two Python services:

* `src/backend/src/services/harvest.py` — SPARQL harvest and merge/upsert of
  SKOS concepts into the relational store (`insert_results`,
  `query_sparql_endpoint`, `validate_collection_uri`, `main`'s preflight).
* `src/backend/src/services/ldes.py` — incremental LDES publication
  (`query_translations_for_ldes`, `get_previous_fragment`,
  `prepare_ldes_data`, `extract_types_from_source`,
  `extract_ldes_paths_from_source`, `create_or_update_ldes`).

Relational rows are lists of structures; SQLite statements that the services
issue are translated statement-by-statement into list operations.  Timestamps
are naturals counting milliseconds since the epoch; the one-second truncation
the Python code performs via `strftime` and `int(dt.timestamp())` becomes
division by 1000.  External collaborators (the SPARQL endpoint, the network,
the JSON and Turtle parsers, the Jinja template) are oracle parameters.
-/

namespace MTT

/-! ### Harvest data model (harvest.py)

The table shapes come from the columns `harvest.py` actually reads and
writes.  `terms`: id, uri, updated_at.  `term_fields`: id, term_id,
field_uri, original_value.  `translations`: id, term_field_id, language,
value, status, source (the INSERT at harvest.py:333-340 names exactly these
columns; other columns of the externally owned schema are never referenced
by the harvest service and are omitted). -/

structure Term where
  id : Nat
  uri : String
  updatedAt : Nat
deriving DecidableEq, Repr

structure TermField where
  id : Nat
  termId : Nat
  fieldUri : String
  originalValue : String
deriving DecidableEq, Repr

structure Translation where
  id : Nat
  termFieldId : Nat
  language : String
  value : String
  status : String
  source : String
deriving DecidableEq, Repr

/-- The relational store as seen by the harvest service, together with the
SQLite rowid counters that produce fresh primary keys. -/
structure DB where
  terms : List Term
  termFields : List TermField
  translations : List Translation
  nextTermId : Nat
  nextTermFieldId : Nat
  nextTranslationId : Nat
deriving DecidableEq, Repr

/-- Per-run counters printed by `insert_results` (harvest.py:214-218). -/
structure Stats where
  termsInserted : Nat
  termsUpdated : Nat
  termFieldsInserted : Nat
  originalsInserted : Nat
deriving DecidableEq, Repr

def emptyStats : Stats := ⟨0, 0, 0, 0⟩

/-- One parsed SPARQL JSON binding (harvest.py:231-247).  `concept` and
`property` are the `.get("value", "")` results (empty string when absent);
`vdata` is `none` when the `value` object is missing or empty (both are
falsy in Python and skipped identically). -/
structure VData where
  value : Option String
  lang : Option String
deriving DecidableEq, Repr

structure Binding where
  concept : String
  property : String
  vdata : Option VData
deriving DecidableEq, Repr

/-- The property data appended to `concept_data[concept_uri]`
(harvest.py:243-247): the language defaults to the literal string
"undefined" when no `xml:lang` tag is present. -/
structure PropData where
  property : String
  value : Option String
  language : String
deriving DecidableEq, Repr

/-- FIELD_MAPPINGS (harvest.py:18-26): SPARQL variable name to field URI. -/
def FIELD_MAPPINGS : List (String × String) :=
  [(("prefLabel"), ("http://www.w3.org/2004/02/skos/core#prefLabel")),
   (("altLabel"), ("http://www.w3.org/2004/02/skos/core#altLabel")),
   (("definition"), ("http://www.w3.org/2004/02/skos/core#definition")),
   (("notation"), ("http://www.w3.org/2004/02/skos/core#notation")),
   (("broader"), ("http://www.w3.org/2004/02/skos/core#broader")),
   (("narrower"), ("http://www.w3.org/2004/02/skos/core#narrower")),
   (("related"), ("http://www.w3.org/2004/02/skos/core#related"))]

/-- The allow-list lookup at harvest.py:295-302: the property URI is matched
against the mapping's values and returned unchanged on a hit. -/
def mapFieldUri (propertyUri : String) : Option String :=
  (FIELD_MAPPINGS.find? (fun kv => kv.2 == propertyUri)).map (fun kv => kv.2)

def bindingProp (b : Binding) : Option PropData :=
  match b.vdata with
  | none => none
  | some vd =>
    if b.property = "" then none
    else some ⟨b.property, vd.value, vd.lang.getD ("undefined")⟩

/-- Appends one binding to the `concept_data` association list, preserving
Python dict insertion order (harvest.py:229-247).  A binding with an empty
concept URI is dropped; a binding with an empty property or missing value
object still registers the concept key with no property entry. -/
def addBinding (acc : List (String × List PropData)) (b : Binding) :
    List (String × List PropData) :=
  if b.concept = "" then acc
  else if acc.any (fun cp => cp.1 == b.concept) then
    acc.map (fun cp =>
      if cp.1 == b.concept then (cp.1, cp.2 ++ (bindingProp b).toList) else cp)
  else
    acc ++ [(b.concept, (bindingProp b).toList)]

def groupBindings (bs : List Binding) : List (String × List PropData) :=
  bs.foldl addBinding []

def findTerm (ts : List Term) (uri : String) : Option Term :=
  ts.find? (fun t => t.uri == uri)

/-- The UPDATE at harvest.py:258-263: refresh `updated_at` of every row with
the given uri. -/
def touchTerm (now : Nat) (uri : String) (ts : List Term) : List Term :=
  ts.map (fun t => if t.uri == uri then { t with updatedAt := now } else t)

def findTermField (tfs : List TermField) (termId : Nat) (fieldUri : String) :
    Option TermField :=
  tfs.find? (fun tf => tf.termId == termId && tf.fieldUri == fieldUri)

/-- Modelled from the spec: the schema of the `translations` table is owned
outside this repository; per spec section 3, `(term_field_id, language,
value, status)` combinations are deduplicated by the INSERT OR IGNORE at
harvest.py:333-340.  This predicate is the uniqueness conflict the IGNORE
clause fires on. -/
def translationConflict (trs : List Translation) (tfId : Nat)
    (lang v status : String) : Bool :=
  trs.any (fun t =>
    t.termFieldId == tfId && t.language == lang && t.value == v && t.status == status)

/-- The term_field upsert at harvest.py:304-328: reuse the existing row's
id, or create the row with this value as `original_value`.  Returns the
term_field id alongside the updated store. -/
def insertTermFieldStep (tid : Nat) (f v : String) (acc : DB × Stats) :
    (DB × Stats) × Nat :=
  match findTermField acc.1.termFields tid f with
  | some tf => (acc, tf.id)
  | none =>
    (({ acc.1 with
         termFields := acc.1.termFields ++
           [(⟨acc.1.nextTermFieldId, tid, f, v⟩ : TermField)],
         nextTermFieldId := acc.1.nextTermFieldId + 1 },
      { acc.2 with termFieldsInserted := acc.2.termFieldsInserted + 1 }),
     acc.1.nextTermFieldId)

/-- The INSERT OR IGNORE of the `original` translation
(harvest.py:330-342), guarded by the schema probe. -/
def insertOriginalStep (sch : Bool) (tfId : Nat) (lang v : String)
    (acc : DB × Stats) : DB × Stats :=
  if sch then
    if translationConflict acc.1.translations tfId lang v ("original") then acc
    else
      ({ acc.1 with
          translations := acc.1.translations ++
            [(⟨acc.1.nextTranslationId, tfId, lang, v,
               ("original"), ("rdf-ingest")⟩ : Translation)],
          nextTranslationId := acc.1.nextTranslationId + 1 },
       { acc.2 with originalsInserted := acc.2.originalsInserted + 1 })
  else acc

/-- The emptiness test `not value or not value.strip()` at
harvest.py:291: the value is missing, empty, or whitespace-only. -/
def isBlank (v : String) : Bool :=
  v.toList.all (fun ch => ch.isWhitespace)

/-- One `(property, value, language)` entry of a concept
(harvest.py:284-342): skip blank values, drop unmapped properties, create
the term_field with `original_value` on first sight, and add the `original`
translation unless it already exists. -/
def processProp (sch : Bool) (termId : Nat) (acc : DB × Stats) (pd : PropData) :
    DB × Stats :=
  match pd.value with
  | none => acc
  | some v =>
    if isBlank v then acc
    else
      match mapFieldUri pd.property with
      | none => acc
      | some f =>
        let r := insertTermFieldStep termId f v acc
        insertOriginalStep sch r.2 pd.language v r.1

/-- The term upsert at harvest.py:251-275: refresh `updated_at` when the
uri is known, insert the term otherwise. -/
def upsertTerm (now : Nat) (c : String) (acc : DB × Stats) : DB × Stats :=
  match findTerm acc.1.terms c with
  | some _ =>
    ({ acc.1 with terms := touchTerm now c acc.1.terms },
     { acc.2 with termsUpdated := acc.2.termsUpdated + 1 })
  | none =>
    ({ acc.1 with terms := acc.1.terms ++ [(⟨acc.1.nextTermId, c, now⟩ : Term)],
                  nextTermId := acc.1.nextTermId + 1 },
     { acc.2 with termsInserted := acc.2.termsInserted + 1 })

/-- One concept of the grouped batch (harvest.py:250-342): upsert the term,
re-select its id (harvest.py:277-282, `continue` if absent), then fold over
its property entries. -/
def processConcept (now : Nat) (sch : Bool) (acc : DB × Stats)
    (cp : String × List PropData) : DB × Stats :=
  match findTerm (upsertTerm now cp.1 acc).1.terms cp.1 with
  | none => upsertTerm now cp.1 acc
  | some t => cp.2.foldl (processProp sch t.id) (upsertTerm now cp.1 acc)

/-- insert_results (harvest.py:187-344).  `sch` is `has_new_schema`, the
PRAGMA probe for the status/source columns at harvest.py:225-227; `now` is
CURRENT_TIMESTAMP. -/
def insert_results (now : Nat) (sch : Bool) (db : DB) (bs : List Binding) :
    DB × Stats :=
  (groupBindings bs).foldl (processConcept now sch) (db, emptyStats)

/-! ### LDES publication data model (ldes.py)

Timestamps are naturals in milliseconds since the epoch.  Fragment files are
named by whole epoch seconds (`int(latest_trans_date.timestamp())` at
ldes.py:628 is division by 1000 for non-negative times); the
`strftime("%Y-%m-%dT%H:%M:%SZ")` second truncation at ldes.py:420 is
`m / 1000 * 1000`. -/

/-- One row of the three-way join issued by `query_translations_for_ldes`
(ldes.py:188-207): a translation joined to its term_field and term. -/
structure TransRow where
  translationId : Nat
  translationValue : String
  language : String
  status : String
  modifiedAt : Option Nat
  createdAt : Nat
  termFieldId : Nat
  fieldUri : String
  fieldTerm : String
  originalValue : String
  termId : Nat
  termUri : String
  sourceId : Nat
deriving DecidableEq, Repr

/-- One result dictionary built at ldes.py:230-243; `modifiedAt` holds
`row['modified_at'] or row['created_at']`, i.e. the coalesced time. -/
structure LdesRec where
  translationId : Nat
  translationValue : String
  language : String
  status : String
  modifiedAt : Nat
  termFieldId : Nat
  fieldUri : String
  fieldTerm : String
  originalValue : String
  termId : Nat
  termUri : String
deriving DecidableEq, Repr

def coalesceTime (r : TransRow) : Nat := r.modifiedAt.getD r.createdAt

/-- The WHERE clause of the translation query (ldes.py:205-218): the source
and status conditions plus the optional date bounds, which the SQL phrases
as `modified_at >= start OR (modified_at IS NULL AND created_at >= start)`
— i.e. a bound on the coalesced time. -/
def rowMatches (sid : Nat) (startDate endDate : Option Nat) (r : TransRow) : Bool :=
  r.sourceId == sid && r.status == ("review") &&
  (match startDate with
   | none => true
   | some s =>
     match r.modifiedAt with
     | some m => decide (s ≤ m)
     | none => decide (s ≤ r.createdAt)) &&
  (match endDate with
   | none => true
   | some e =>
     match r.modifiedAt with
     | some m => decide (m ≤ e)
     | none => decide (r.createdAt ≤ e))

/-- Insertion into a list sorted by a natural-number key; models one step of
the ORDER BY at ldes.py:220. -/
def insertByKey {α : Type} (key : α → Nat) (x : α) : List α → List α
  | [] => [x]
  | y :: ys => if key x ≤ key y then x :: y :: ys else y :: insertByKey key x ys

/-- ORDER BY `datetime(COALESCE(t.modified_at, t.created_at)) ASC`
(ldes.py:220), modelled as insertion sort on the coalesced key. -/
def sortByKey {α : Type} (key : α → Nat) : List α → List α
  | [] => []
  | x :: xs => insertByKey key x (sortByKey key xs)

def toLdesRec (r : TransRow) : LdesRec :=
  ⟨r.translationId, r.translationValue, r.language, r.status, coalesceTime r,
   r.termFieldId, r.fieldUri, r.fieldTerm, r.originalValue, r.termId, r.termUri⟩

/-- query_translations_for_ldes (ldes.py:170-246): filter, order ascending
by coalesced time, and coalesce `modified_at` in the result record. -/
def query_translations_for_ldes (rows : List TransRow) (sid : Nat)
    (startDate endDate : Option Nat) : List LdesRec :=
  (sortByKey coalesceTime (rows.filter (rowMatches sid startDate endDate))).map toLdesRec

/-- The in-memory strictness filter at ldes.py:585-588: keep only rows
strictly newer than the recovered cursor. -/
def selectNewTranslations (rows : List TransRow) (sid cur now : Nat) : List LdesRec :=
  (query_translations_for_ldes rows sid (some cur) (some now)).filter
    (fun t => decide (cur < t.modifiedAt))

/-- The feed directory of one source.  `fragments` are the numeric stems of
the `.ttl` files other than `latest.ttl` (in epoch seconds); `otherTtl`
records whether non-numeric `.ttl` files exist; `latestModified` is the
result of parsing `latest.ttl` for its maximum `dcterms:modified` value in
milliseconds (`none` when the file is absent, unparsable or carries no
dates, cf. get_latest_modified_from_fragment, ldes.py:85-118). -/
structure FeedDir where
  present : Bool
  fragments : List Nat
  otherTtl : Bool
  hasLatest : Bool
  latestModified : Option Nat
deriving DecidableEq, Repr

/-- detect_existing_ldes (ldes.py:55-80): returns (exists, latest.ttl found). -/
def detect_existing_ldes (d : FeedDir) : Bool × Bool :=
  if !d.present then (false, false)
  else if d.hasLatest then (true, true)
  else if !d.fragments.isEmpty || d.otherTtl then (true, false)
  else (false, false)

def listMax : List Nat → Option Nat
  | [] => none
  | x :: xs =>
    match listMax xs with
    | none => some x
    | some m => some (max x m)

/-- get_previous_fragment (ldes.py:121-167): the highest numeric fragment
stem, ignoring `latest.ttl` and non-numeric names; `none` when the
directory is missing or holds no numeric fragment. -/
def get_previous_fragment (d : FeedDir) : Option Nat :=
  if !d.present then none else listMax d.fragments

/-- One assembled term record (prepare_ldes_data, ldes.py:399-445).
`modified` is stored second-truncated because the code keeps it as a
`%Y-%m-%dT%H:%M:%SZ` string; `fields` maps each field URI to its ordered
(value, language) pairs. -/
structure TermRecord where
  concept : String
  modified : Nat
  fields : List (String × List (String × String))
deriving DecidableEq, Repr

def addFieldValue (fields : List (String × List (String × String)))
    (fieldUri v lang : String) : List (String × List (String × String)) :=
  if fields.any (fun kv => kv.1 == fieldUri) then
    fields.map (fun kv => if kv.1 == fieldUri then (kv.1, kv.2 ++ [(v, lang)]) else kv)
  else fields ++ [(fieldUri, [(v, lang)])]

def addTransToData (acc : List TermRecord) (t : LdesRec) : List TermRecord :=
  if acc.any (fun r => r.concept == t.termUri) then
    acc.map (fun r =>
      if r.concept == t.termUri then
        { r with
            modified := if r.modified < t.modifiedAt then t.modifiedAt / 1000 * 1000
                        else r.modified,
            fields := addFieldValue r.fields t.fieldUri t.translationValue t.language }
      else r)
  else
    acc ++ [(⟨t.termUri, t.modifiedAt / 1000 * 1000,
             [(t.fieldUri, [(t.translationValue, t.language)])]⟩ : TermRecord)]

/-- prepare_ldes_data (ldes.py:399-445): group by term URI in first-seen
order, tracking the maximum modified time (second-truncated) and all
value/language pairs per field. -/
def prepare_ldes_data (ts : List LdesRec) : List TermRecord :=
  ts.foldl addTransToData []

/-! ### Source configuration and fragment metadata (ldes.py) -/

/-- One row of the `sources` table as read by ldes.py: source_id,
source_type, source_path, translation_config (the latter two nullable). -/
structure SourceRow where
  sourceId : Nat
  sourceType : String
  sourcePath : Option String
  translationConfig : Option String
deriving DecidableEq, Repr

/-- Parsed JSON values, the image of Python's `json.loads`. -/
inductive JsonVal where
  | str (s : String)
  | num (n : Int)
  | bool (b : Bool)
  | null
  | arr (xs : List JsonVal)
  | obj (kvs : List (String × JsonVal))

def jsonLookup (kvs : List (String × JsonVal)) (key : String) : Option JsonVal :=
  (kvs.find? (fun kv => kv.1 == key)).map (fun kv => kv.2)

def findSource (sources : List SourceRow) (sid : Nat) : Option SourceRow :=
  sources.find? (fun s => s.sourceId == sid)

def typeEntry : JsonVal → Option JsonVal
  | JsonVal.obj kvs => jsonLookup kvs ("type")
  | _ => none

/-- extract_types_from_source (ldes.py:249-296).  `parseJson` is the
`json.loads` oracle (`none` = JSONDecodeError).  A NULL or empty config, a
parse failure, a non-object document or a non-list `types` entry all yield
the empty list; otherwise each element that is an object with a `type` key
contributes that value. -/
def extract_types_from_source (parseJson : String → Option JsonVal)
    (sources : List SourceRow) (sid : Nat) : List JsonVal :=
  match findSource sources sid with
  | none => []
  | some s =>
    match s.translationConfig with
    | none => []
    | some cfgStr =>
      if cfgStr = "" then []
      else
        match parseJson cfgStr with
        | none => []
        | some cfg =>
          match cfg with
          | JsonVal.obj kvs =>
            match jsonLookup kvs ("types") with
            | some (JsonVal.arr xs) => xs.filterMap typeEntry
            | _ => []
          | _ => []

/-- The first `ldes:timestampPath` and `ldes:versionOfPath` objects found in
a fetched feed description, as strings (`str(o)`); the fetch-and-parse
oracle returns `none` on a RequestException or a Turtle parse error
(ldes.py:347-361), both of which lead to the defaults. -/
structure FeedDesc where
  timestampPath : Option String
  versionOfPath : Option String
deriving DecidableEq, Repr

def default_timestamp : String := "http://purl.org/dc/terms/modified"

def default_versionof : String := "http://purl.org/dc/terms/isVersionOf"

/-- extract_ldes_paths_from_source (ldes.py:299-396): look the source up,
require source_type 'LDES' and a non-empty source_path, fetch and parse the
remote feed, and fall back to the defaults at every failure point or when a
found value is the empty string. -/
def extract_ldes_paths_from_source (fetchParse : String → Option FeedDesc)
    (sources : List SourceRow) (sid : Nat) : String × String :=
  match findSource sources sid with
  | none => (default_timestamp, default_versionof)
  | some s =>
    if s.sourceType ≠ "LDES" then (default_timestamp, default_versionof)
    else
      match s.sourcePath with
      | none => (default_timestamp, default_versionof)
      | some p =>
        if p = "" then (default_timestamp, default_versionof)
        else
          match fetchParse p with
          | none => (default_timestamp, default_versionof)
          | some g =>
            (match g.timestampPath with
             | none => default_timestamp
             | some v => if v = "" then default_timestamp else v,
             match g.versionOfPath with
             | none => default_versionof
             | some v => if v = "" then default_versionof else v)

/-- Modelled from the spec: the resolution order claim C9 asserts for the
timestamp-path and version-of-path identifiers — explicit source
configuration first (path overrides stored in `translation_config` under
`timestampPath` / `versionOfPath` keys), then the remote feed description
(fetched only when the source's type indicates an LDES origin), then the
hard-coded defaults.  No function of the repository implements this order;
the definition exists to be compared with
`extract_ldes_paths_from_source`. -/
def extract_ldes_paths_spec (parseJson : String → Option JsonVal)
    (fetchParse : String → Option FeedDesc)
    (sources : List SourceRow) (sid : Nat) : String × String :=
  match findSource sources sid with
  | none => (default_timestamp, default_versionof)
  | some s =>
    let cfgPaths : Option String × Option String :=
      match s.translationConfig with
      | none => (none, none)
      | some cfgStr =>
        match parseJson cfgStr with
        | some (JsonVal.obj kvs) =>
          ((jsonLookup kvs ("timestampPath")).bind (fun v =>
              match v with | JsonVal.str x => some x | _ => none),
           (jsonLookup kvs ("versionOfPath")).bind (fun v =>
              match v with | JsonVal.str x => some x | _ => none))
        | _ => (none, none)
    let feedPaths : Option String × Option String :=
      if s.sourceType = "LDES" then
        match s.sourcePath with
        | some p =>
          match fetchParse p with
          | some g => (g.timestampPath, g.versionOfPath)
          | none => (none, none)
        | none => (none, none)
      else (none, none)
    ((cfgPaths.1.orElse (fun _ => feedPaths.1)).getD default_timestamp,
     (cfgPaths.2.orElse (fun _ => feedPaths.2)).getD default_versionof)

/-! ### Publish run (create_or_update_ldes, ldes.py:539-678) -/

/-- The outcome of one publish run: the returned dictionary
(status/message/fragment, plus the metadata passed to the template) and the
feed directory after the run.  `status` is the literal string the Python
code returns; failures raise and are out of band. -/
structure PublishResult where
  status : String
  message : String
  fragment : Option Nat
  prevFragment : Option Nat
  prevFragmentTime : Option Nat
  ldesData : List TermRecord
  types : List JsonVal
  tsPath : String
  voPath : String
  translationsCount : Nat
  dir : FeedDir

def skippedResult (d : FeedDir) (msg : String) : PublishResult :=
  ⟨("skipped"), msg, none, none, none, [], [], (""), (""), 0, d⟩

/-- The fragment-naming step at ldes.py:621-633: the maximum coalesced
modification time of the selected rows, truncated to epoch seconds
(`int(latest_trans_date.timestamp())`); the clock is used when the
selection is empty (dead in context, the caller returns beforehand). -/
def publishEpoch (ts : List LdesRec) (now : Nat) : Nat :=
  match listMax (ts.map (fun t => t.modifiedAt)) with
  | some m => m / 1000
  | none => now / 1000

/-- Steps 5-7 of create_or_update_ldes (ldes.py:618-678) for a non-empty
selection: assemble the records, name the fragment by the truncated maximum
coalesced time, link it to the highest existing numeric fragment, resolve
types and paths, write the fragment and copy it over `latest.ttl`.

Modelled from the spec: the Jinja template `ldes_templates/ldes_fragment.ttl`
is repository code not present under src/; per spec sections 4.4 and 4.6 the
fragment it renders embeds each term record's second-truncated modification
time as `dcterms:modified`, so re-parsing the copied `latest.ttl` yields the
maximum of those values, which is `latestModified` of the resulting
directory. -/
def publishFragment (d : FeedDir) (parseJson : String → Option JsonVal)
    (fetchParse : String → Option FeedDesc) (sources : List SourceRow)
    (sid : Nat) (now : Nat) (ts : List LdesRec) : PublishResult :=
  ⟨("success"), ("LDES fragment created successfully"),
   some (publishEpoch ts now),
   get_previous_fragment d,
   (get_previous_fragment d).map (fun e => e * 1000),
   prepare_ldes_data ts,
   extract_types_from_source parseJson sources sid,
   (extract_ldes_paths_from_source fetchParse sources sid).1,
   (extract_ldes_paths_from_source fetchParse sources sid).2,
   ts.length,
   ⟨true,
    (if d.fragments.contains (publishEpoch ts now) then d.fragments
     else d.fragments ++ [publishEpoch ts now]),
    d.otherTtl,
    true,
    listMax ((prepare_ldes_data ts).map (fun r => r.modified))⟩⟩

/-- create_or_update_ldes (ldes.py:539-678).  `rows` is the joined
translations relation, `sources` the sources table, `parseJson` and
`fetchParse` the external parser/network oracles, `now` the clock
(milliseconds). -/
def create_or_update_ldes (d : FeedDir) (rows : List TransRow)
    (sources : List SourceRow) (parseJson : String → Option JsonVal)
    (fetchParse : String → Option FeedDesc) (sid : Nat) (now : Nat) :
    PublishResult :=
  if (detect_existing_ldes d).1 && (detect_existing_ldes d).2 then
    match d.latestModified with
    | some cur =>
      if (selectNewTranslations rows sid cur now).isEmpty then
        skippedResult d ("No new translations to publish")
      else
        publishFragment d parseJson fetchParse sources sid now
          (selectNewTranslations rows sid cur now)
    | none =>
      if (query_translations_for_ldes rows sid none none).isEmpty then
        skippedResult d ("No translations with status=review found")
      else
        publishFragment d parseJson fetchParse sources sid now
          (query_translations_for_ldes rows sid none none)
  else
    if (query_translations_for_ldes rows sid none none).isEmpty then
      skippedResult d ("No translations with status=review found")
    else
      publishFragment d parseJson fetchParse sources sid now
        (query_translations_for_ldes rows sid none none)

/-! ### Retry fetcher (query_sparql_endpoint, harvest.py:142-184) -/

/-- What one attempt against the SPARQL endpoint can produce: a JSON result,
an `HTTPError` with a status code, or any other exception. -/
inductive FetchOutcome where
  | ok (res : String)
  | http (code : Nat) (msg : String)
  | exc (msg : String)
deriving DecidableEq, Repr

/-- The observable end of `query_sparql_endpoint`: the returned results, a
raised exception, or the implicit `None` return when the loop body never
runs (only possible when `max_retries` is 0). -/
inductive QueryResult where
  | ok (res : String)
  | err (msg : String)
  | nores
deriving DecidableEq, Repr

def sparqlFailMsg (msg : String) : String :=
  ("SPARQL query failed: ") ++ msg

/-- The retry loop body (harvest.py:170-184).  `oracle` gives the outcome of
each attempt, `fuel` is the number of loop iterations left; the second
component collects the backoff delays slept, in order. -/
def retryAux (oracle : Nat → FetchOutcome) (maxRetries baseDelay : Nat) :
    Nat → Nat → QueryResult × List Nat
  | _, 0 => (QueryResult.nores, [])
  | attempt, fuel + 1 =>
    match oracle attempt with
    | FetchOutcome.ok r => (QueryResult.ok r, [])
    | FetchOutcome.http code msg =>
      if code = 502 ∧ attempt < maxRetries - 1 then
        let rest := retryAux oracle maxRetries baseDelay (attempt + 1) fuel
        (rest.1, baseDelay * 2 ^ attempt :: rest.2)
      else (QueryResult.err (sparqlFailMsg msg), [])
    | FetchOutcome.exc msg => (QueryResult.err (sparqlFailMsg msg), [])

/-- query_sparql_endpoint (harvest.py:142-184), abstracted over the
endpoint oracle; returns the result and the list of delays slept. -/
def query_sparql_endpoint (oracle : Nat → FetchOutcome)
    (maxRetries baseDelay : Nat) : QueryResult × List Nat :=
  retryAux oracle maxRetries baseDelay 0 maxRetries

/-- The batch loop of `main` (harvest.py:395-400): offsets are fetched in
order; a fetch failure propagates and ends the run.  Returns the offsets
whose batches were fetched and merged, and the error if one occurred. -/
def harvestBatches (fetch : Nat → QueryResult) : List Nat → List Nat × Option String
  | [] => ([], none)
  | o :: os =>
    match fetch o with
    | QueryResult.ok _ =>
      let rest := harvestBatches fetch os
      (o :: rest.1, rest.2)
    | QueryResult.err m => ([], some m)
    | QueryResult.nores => ([], some ("no result"))

/-! ### Harvest preflight (validate_collection_uri and main, harvest.py) -/

/-- The characters the injection guard at harvest.py:49 prohibits:
angle brackets, double and single quote, braces, pipe, backslash, caret,
backtick and square brackets. -/
def prohibitedChars : List Char :=
  [60, 62, 34, 39, 123, 125, 124, 92, 94, 96, 91, 93].map Char.ofNat

/-- Whether the first list of characters leads the second; models the
anchored scheme match of `re.match` on the URI's text. -/
def charsLead : List Char → List Char → Bool
  | [], _ => true
  | _ :: _, [] => false
  | c :: cs, d :: ds => c == d && charsLead cs ds

/-- validate_collection_uri (harvest.py:29-58): scheme check, then the
prohibited-character check; the authority warning is non-fatal and not
modelled. -/
def validate_collection_uri (uri : String) : Except String Unit :=
  if !(charsLead ("http://").toList uri.toList ||
       charsLead ("https://").toList uri.toList) then
    Except.error (("Invalid collection URI: ") ++ uri ++
      (". Must start with http:// or https://"))
  else if uri.toList.any (fun c => prohibitedChars.contains c) then
    Except.error (("Invalid collection URI: ") ++ uri ++
      (". Contains prohibited characters."))
  else Except.ok ()

/-- Where `main` (harvest.py:354-425) first leaves its preflight sequence:
URI validation, database existence, then the single schema probe for the
`terms` table; `fetchIssued` marks the point where `get_member_count`
performs the first upstream request (harvest.py:390), before which no row
has been written. -/
inductive PreflightOutcome where
  | invalidUri (msg : String)
  | missingDb
  | schemaError
  | fetchIssued
deriving DecidableEq, Repr

/-- The preflight of `main` (harvest.py:367-390) over the set of tables
present in the database. -/
def harvestPreflight (uri : String) (dbExists : Bool) (tables : List String) :
    PreflightOutcome :=
  match validate_collection_uri uri with
  | Except.error m => PreflightOutcome.invalidUri m
  | Except.ok _ =>
    if !dbExists then PreflightOutcome.missingDb
    else if !(tables.contains ("terms")) then PreflightOutcome.schemaError
    else PreflightOutcome.fetchIssued

/-! ### Lemmas about the merge engine -/

/-- The deduplication key of an ingested translation row. -/
def trKey (t : Translation) : Nat × String × String × String :=
  (t.termFieldId, t.language, t.value, t.status)

/-- The uniqueness key of a term_field row. -/
def tfKey (tf : TermField) : Nat × String := (tf.termId, tf.fieldUri)

theorem conflict_false_not_mem {trs : List Translation} {tfId : Nat}
    {lang v s : String}
    (h : translationConflict trs tfId lang v s = false) :
    ∀ t ∈ trs, trKey t ≠ (tfId, lang, v, s) := by
  intro t ht heq
  have h1 : t.termFieldId = tfId := congrArg Prod.fst heq
  have h2 : t.language = lang := congrArg (fun p => p.2.1) heq
  have h3 : t.value = v := congrArg (fun p => p.2.2.1) heq
  have h4 : t.status = s := congrArg (fun p => p.2.2.2) heq
  have : trs.any (fun t =>
      t.termFieldId == tfId && t.language == lang && t.value == v && t.status == s) = true := by
    refine List.any_eq_true.mpr ⟨t, ht, ?_⟩
    simp [h1, h2, h3, h4]
  rw [translationConflict] at h
  rw [h] at this
  exact Bool.false_ne_true this

theorem findTermField_none_not_mem {tfs : List TermField} {tid : Nat} {f : String}
    (h : findTermField tfs tid f = none) :
    ∀ tf ∈ tfs, tfKey tf ≠ (tid, f) := by
  intro tf htf heq
  have h1 : tf.termId = tid := congrArg Prod.fst heq
  have h2 : tf.fieldUri = f := congrArg Prod.snd heq
  have := List.find?_eq_none.mp h tf htf
  simp [h1, h2] at this

/-- The frame a single merge sub-step respects: terms and the term counter
untouched, term_fields and translations append-only with every appended
translation an `original` `rdf-ingest` row, and both uniqueness keys kept
duplicate-free. -/
structure MergeAppends (old new : DB) : Prop where
  terms_eq : new.terms = old.terms
  nextTermId_eq : new.nextTermId = old.nextTermId
  termFields_append : ∃ tfs, new.termFields = old.termFields ++ tfs
  translations_append : ∃ trs, new.translations = old.translations ++ trs ∧
    ∀ t ∈ trs, t.status = ("original") ∧ t.source = ("rdf-ingest")
  tf_nodup : (old.termFields.map tfKey).Nodup → (new.termFields.map tfKey).Nodup
  tr_nodup : (old.translations.map trKey).Nodup → (new.translations.map trKey).Nodup

theorem mergeAppends_rfl (db : DB) : MergeAppends db db :=
  ⟨Eq.refl _, Eq.refl _, ⟨[], by simp⟩, ⟨[], by simp⟩, fun h => h, fun h => h⟩

theorem mergeAppends_trans {a b c : DB} (h1 : MergeAppends a b)
    (h2 : MergeAppends b c) : MergeAppends a c := by
  obtain ⟨t1, n1, ⟨tfs1, e1⟩, ⟨trs1, e1', p1⟩, d1, d1'⟩ := h1
  obtain ⟨t2, n2, ⟨tfs2, e2⟩, ⟨trs2, e2', p2⟩, d2, d2'⟩ := h2
  refine ⟨t2.trans t1, n2.trans n1, ⟨tfs1 ++ tfs2, ?_⟩, ⟨trs1 ++ trs2, ?_, ?_⟩,
    fun h => d2 (d1 h), fun h => d2' (d1' h)⟩
  · rw [e2, e1, List.append_assoc]
  · rw [e2', e1', List.append_assoc]
  · intro t ht
    rcases List.mem_append.mp ht with h | h
    · exact p1 t h
    · exact p2 t h

theorem insertTermFieldStep_shape (tid : Nat) (f v : String) (acc : DB × Stats) :
    MergeAppends acc.1 (insertTermFieldStep tid f v acc).1.1 := by
  rw [insertTermFieldStep]
  cases hfind : findTermField acc.1.termFields tid f with
  | some tf => exact mergeAppends_rfl _
  | none =>
    refine ⟨Eq.refl _, Eq.refl _, ⟨[⟨acc.1.nextTermFieldId, tid, f, v⟩], Eq.refl _⟩,
      ⟨[], by simp⟩, ?_, fun h => h⟩
    intro hnd
    simp only [List.map_append, List.map_cons, List.map_nil]
    rw [List.nodup_append]
    refine ⟨hnd, List.nodup_singleton _, ?_⟩
    intro k hk hk1
    rcases List.mem_map.mp hk with ⟨tf, htf, rfl⟩
    rw [List.mem_singleton] at hk1
    exact findTermField_none_not_mem hfind tf htf hk1

theorem insertOriginalStep_shape (sch : Bool) (tfId : Nat) (lang v : String)
    (acc : DB × Stats) :
    MergeAppends acc.1 (insertOriginalStep sch tfId lang v acc).1 := by
  rw [insertOriginalStep]
  cases sch with
  | false => exact mergeAppends_rfl _
  | true =>
    rw [if_pos (Eq.refl _)]
    by_cases hc : translationConflict acc.1.translations tfId lang v ("original") = true
    · rw [if_pos hc]
      exact mergeAppends_rfl _
    · rw [if_neg hc]
      refine ⟨Eq.refl _, Eq.refl _, ⟨[], by simp⟩,
        ⟨[⟨acc.1.nextTranslationId, tfId, lang, v, ("original"), ("rdf-ingest")⟩],
         Eq.refl _, ?_⟩, fun h => h, ?_⟩
      · intro t ht
        rw [List.mem_singleton] at ht
        subst ht
        exact ⟨Eq.refl _, Eq.refl _⟩
      · intro hnd
        simp only [List.map_append, List.map_cons, List.map_nil]
        rw [List.nodup_append]
        refine ⟨hnd, List.nodup_singleton _, ?_⟩
        intro k hk hk1
        rcases List.mem_map.mp hk with ⟨t, ht, rfl⟩
        rw [List.mem_singleton] at hk1
        exact conflict_false_not_mem (Bool.eq_false_iff.mpr hc) t ht hk1

theorem processProp_shape (sch : Bool) (tid : Nat) (acc : DB × Stats)
    (pd : PropData) : MergeAppends acc.1 (processProp sch tid acc pd).1 := by
  rw [processProp]
  split
  · exact mergeAppends_rfl _
  next v hv0 =>
    split
    · exact mergeAppends_rfl _
    · split
      · exact mergeAppends_rfl _
      next f hf =>
        exact mergeAppends_trans (insertTermFieldStep_shape tid f v acc)
          (insertOriginalStep_shape sch _ pd.language v _)

theorem foldProps_shape (sch : Bool) (tid : Nat) (pds : List PropData) :
    ∀ acc : DB × Stats, MergeAppends acc.1 (pds.foldl (processProp sch tid) acc).1 := by
  induction pds with
  | nil => intro acc; exact mergeAppends_rfl _
  | cons pd pds ih =>
    intro acc
    exact mergeAppends_trans (processProp_shape sch tid acc pd) (ih (processProp sch tid acc pd))

/-- The weaker frame a whole concept respects: term rows may be touched or
added, but term_fields and translations still only grow by `original`
ingest rows and keep their keys duplicate-free. -/
structure ConceptShape (old new : DB) : Prop where
  termFields_append : ∃ tfs, new.termFields = old.termFields ++ tfs
  translations_append : ∃ trs, new.translations = old.translations ++ trs ∧
    ∀ t ∈ trs, t.status = ("original") ∧ t.source = ("rdf-ingest")
  tf_nodup : (old.termFields.map tfKey).Nodup → (new.termFields.map tfKey).Nodup
  tr_nodup : (old.translations.map trKey).Nodup → (new.translations.map trKey).Nodup

theorem conceptShape_rfl (db : DB) : ConceptShape db db :=
  ⟨⟨[], by simp⟩, ⟨[], by simp⟩, fun h => h, fun h => h⟩

theorem conceptShape_trans {a b c : DB} (h1 : ConceptShape a b)
    (h2 : ConceptShape b c) : ConceptShape a c := by
  obtain ⟨⟨tfs1, e1⟩, ⟨trs1, e1', p1⟩, d1, d1'⟩ := h1
  obtain ⟨⟨tfs2, e2⟩, ⟨trs2, e2', p2⟩, d2, d2'⟩ := h2
  refine ⟨⟨tfs1 ++ tfs2, ?_⟩, ⟨trs1 ++ trs2, ?_, ?_⟩,
    fun h => d2 (d1 h), fun h => d2' (d1' h)⟩
  · rw [e2, e1, List.append_assoc]
  · rw [e2', e1', List.append_assoc]
  · intro t ht
    rcases List.mem_append.mp ht with h | h
    · exact p1 t h
    · exact p2 t h

theorem mergeAppends_toConceptShape {a b : DB} (h : MergeAppends a b) :
    ConceptShape a b :=
  ⟨h.termFields_append, h.translations_append, h.tf_nodup, h.tr_nodup⟩

theorem upsertTerm_shape (now : Nat) (c : String) (acc : DB × Stats) :
    ConceptShape acc.1 (upsertTerm now c acc).1 := by
  rw [upsertTerm]
  split
  · exact ⟨⟨[], by simp⟩, ⟨[], by simp⟩, fun h => h, fun h => h⟩
  · exact ⟨⟨[], by simp⟩, ⟨[], by simp⟩, fun h => h, fun h => h⟩

theorem processConcept_shape (now : Nat) (sch : Bool) (acc : DB × Stats)
    (cp : String × List PropData) :
    ConceptShape acc.1 (processConcept now sch acc cp).1 := by
  rw [processConcept]
  split
  · exact upsertTerm_shape now cp.1 acc
  next t ht =>
    exact conceptShape_trans (upsertTerm_shape now cp.1 acc)
      (mergeAppends_toConceptShape (foldProps_shape sch t.id cp.2 _))

theorem foldConcepts_shape (now : Nat) (sch : Bool)
    (groups : List (String × List PropData)) :
    ∀ acc : DB × Stats,
      ConceptShape acc.1 (groups.foldl (processConcept now sch) acc).1 := by
  induction groups with
  | nil => intro acc; exact conceptShape_rfl _
  | cons cp groups ih =>
    intro acc
    exact conceptShape_trans (processConcept_shape now sch acc cp) (ih (processConcept now sch acc cp))

theorem insert_results_shape (now : Nat) (sch : Bool) (db : DB)
    (bs : List Binding) : ConceptShape db (insert_results now sch db bs).1 :=
  foldConcepts_shape now sch (groupBindings bs) (db, emptyStats)

theorem findTerm_touchTerm (now : Nat) (c : String) (ts : List Term) :
    findTerm (touchTerm now c ts) c =
      (findTerm ts c).map (fun t => { t with updatedAt := now }) := by
  induction ts with
  | nil => rfl
  | cons t ts ih =>
    rw [touchTerm, List.map_cons]
    by_cases h : t.uri == c
    · rw [if_pos h]
      rw [findTerm, findTerm, List.find?_cons, List.find?_cons]
      rw [h]
      rfl
    · rw [if_neg h]
      rw [findTerm, findTerm, List.find?_cons, List.find?_cons]
      rw [Bool.eq_false_iff.mpr h]
      exact ih

theorem findTerm_upsert (now : Nat) (c : String) (acc : DB × Stats) :
    ∃ t, findTerm (upsertTerm now c acc).1.terms c = some t ∧ t.uri = c := by
  rw [upsertTerm]
  cases hft : findTerm acc.1.terms c with
  | some t0 =>
    refine ⟨{ t0 with updatedAt := now }, ?_, ?_⟩
    · rw [findTerm_touchTerm, hft]
      rfl
    · have := List.find?_some hft
      exact eq_of_beq this
  | none =>
    refine ⟨⟨acc.1.nextTermId, c, now⟩, ?_, rfl⟩
    rw [findTerm, List.find?_append]
    rw [findTerm] at hft
    rw [hft]
    simp

/-- Claim C1 — for every harvest run, an already existing
`(term_id, field_uri)` row keeps its `original_value` untouched (existing
term_fields rows survive as an unchanged prefix, so `original_value` is
only ever set at row creation), and when the term_field and translation
uniqueness keys are duplicate-free beforehand they stay duplicate-free, so
the matching `original` translation row is never duplicated. -/
theorem original_value_write_once (now : Nat) (sch : Bool) (db : DB)
    (bs : List Binding)
    (hf : (db.termFields.map tfKey).Nodup)
    (ht : (db.translations.map trKey).Nodup) :
    (∃ tfs, (insert_results now sch db bs).1.termFields = db.termFields ++ tfs) ∧
    ((insert_results now sch db bs).1.termFields.map tfKey).Nodup ∧
    ((insert_results now sch db bs).1.translations.map trKey).Nodup := by
  obtain ⟨h1, _, h3, h4⟩ := insert_results_shape now sch db bs
  exact ⟨h1, h3 hf, h4 ht⟩

def exDefUri : String := "http://www.w3.org/2004/02/skos/core#definition"

/-- The store after a first harvest recorded `original_value="sea"`. -/
def dbSea : DB :=
  ⟨[⟨1, ("http://ex/1"), 5⟩],
   [⟨1, 1, exDefUri, ("sea")⟩],
   [⟨1, 1, ("en"), ("sea"), ("original"), ("rdf-ingest")⟩],
   2, 2, 2⟩

/-- A later harvest binding that observes upstream value "ocean" for the
same field. -/
def bindOcean : Binding :=
  ⟨("http://ex/1"), exDefUri, some ⟨some ("ocean"), some ("en")⟩⟩

theorem original_value_write_once_witness :
    (dbSea.termFields.map tfKey).Nodup ∧
    (dbSea.translations.map trKey).Nodup ∧
    ((∃ tfs, (insert_results 9 true dbSea [bindOcean]).1.termFields =
        dbSea.termFields ++ tfs) ∧
     ((insert_results 9 true dbSea [bindOcean]).1.termFields.map tfKey).Nodup ∧
     ((insert_results 9 true dbSea [bindOcean]).1.translations.map trKey).Nodup) :=
  ⟨by decide, by decide,
   original_value_write_once 9 true dbSea [bindOcean] (by decide) (by decide)⟩

/-- Claim C4 — a harvest run only appends translation rows, and every
appended row has status `original` (and source `rdf-ingest`); hence every
curated row — in particular every `review` row — is present and
byte-identical afterwards, none is deleted, and no copy of it is created:
the `review` sublist of the store is exactly preserved. -/
theorem harvest_preserves_curated_rows (now : Nat) (sch : Bool) (db : DB)
    (bs : List Binding) :
    ∃ added, (insert_results now sch db bs).1.translations = db.translations ++ added ∧
      (∀ t ∈ added, t.status = ("original") ∧ t.source = ("rdf-ingest")) ∧
      (insert_results now sch db bs).1.translations.filter
          (fun t => t.status == ("review")) =
        db.translations.filter (fun t => t.status == ("review")) := by
  obtain ⟨added, he, hp⟩ := (insert_results_shape now sch db bs).translations_append
  refine ⟨added, he, hp, ?_⟩
  rw [he, List.filter_append]
  have hnil : added.filter (fun t => t.status == ("review")) = [] := by
    refine List.filter_eq_nil_iff.mpr ?_
    intro t htm
    have h1 := (hp t htm).1
    simp [h1]
  rw [hnil, List.append_nil]

theorem insertTermFieldStep_spec (tid : Nat) (f v : String) (acc : DB × Stats) :
    ∃ tf, tf ∈ (insertTermFieldStep tid f v acc).1.1.termFields ∧
      tf.termId = tid ∧ tf.fieldUri = f ∧
      (insertTermFieldStep tid f v acc).2 = tf.id ∧
      (insertTermFieldStep tid f v acc).1.1.translations = acc.1.translations ∧
      (insertTermFieldStep tid f v acc).1.1.terms = acc.1.terms := by
  rw [insertTermFieldStep]
  split
  next tf hfind =>
    have hp := List.find?_some hfind
    rw [Bool.and_eq_true] at hp
    exact ⟨tf, List.mem_of_find?_eq_some hfind, eq_of_beq hp.1, eq_of_beq hp.2,
      rfl, rfl, rfl⟩
  next hfind =>
    refine ⟨⟨acc.1.nextTermFieldId, tid, f, v⟩, ?_, rfl, rfl, rfl, rfl, rfl⟩
    simp

theorem insertOriginalStep_spec (tfId : Nat) (lang v : String) (acc : DB × Stats) :
    ∃ tr, tr ∈ (insertOriginalStep true tfId lang v acc).1.translations ∧
      tr.termFieldId = tfId ∧ tr.language = lang ∧ tr.value = v ∧
      tr.status = ("original") ∧
      (insertOriginalStep true tfId lang v acc).1.termFields = acc.1.termFields ∧
      (insertOriginalStep true tfId lang v acc).1.terms = acc.1.terms := by
  rw [insertOriginalStep]
  rw [if_pos (Eq.refl true)]
  split
  next hc =>
    rw [translationConflict] at hc
    obtain ⟨tr, htr, hp⟩ := List.any_eq_true.mp hc
    rw [Bool.and_eq_true, Bool.and_eq_true, Bool.and_eq_true] at hp
    exact ⟨tr, htr, eq_of_beq hp.1.1.1, eq_of_beq hp.1.1.2, eq_of_beq hp.1.2,
      eq_of_beq hp.2, rfl, rfl⟩
  next hc =>
    refine ⟨⟨acc.1.nextTranslationId, tfId, lang, v, ("original"), ("rdf-ingest")⟩,
      ?_, rfl, rfl, rfl, rfl, rfl, rfl⟩
    simp

/-- Claim C10 — merging a binding whose value object carries no `xml:lang`
key records the `original` translation under the literal language
"undefined": the run's output contains the term for the concept, a
term_field for the mapped field, and an `original` translation row for that
field whose language is exactly "undefined" and whose value is the
binding's value (whatever translations the store already held). -/
theorem no_lang_tag_records_undefined (now : Nat) (db : DB) (c p v f : String)
    (hc : c ≠ "") (hv : isBlank v = false) (hf : mapFieldUri p = some f) :
    ∃ t ∈ (insert_results now true db [⟨c, p, some ⟨some v, none⟩⟩]).1.terms,
      t.uri = c ∧
      ∃ tf ∈ (insert_results now true db [⟨c, p, some ⟨some v, none⟩⟩]).1.termFields,
        tf.termId = t.id ∧ tf.fieldUri = f ∧
        ∃ tr ∈ (insert_results now true db [⟨c, p, some ⟨some v, none⟩⟩]).1.translations,
          tr.termFieldId = tf.id ∧ tr.language = ("undefined") ∧
          tr.value = v ∧ tr.status = ("original") := by
  have hemp : mapFieldUri ("") = none := by decide
  have hp : p ≠ "" := by
    intro h
    rw [h, hemp] at hf
    exact Option.noConfusion hf
  have hg : groupBindings [⟨c, p, some ⟨some v, none⟩⟩] =
      [(c, [⟨p, some v, ("undefined")⟩])] := by
    simp [groupBindings, addBinding, bindingProp, hc, hp]
  obtain ⟨t, hft, htc⟩ := findTerm_upsert now c (db, emptyStats)
  have hrun : insert_results now true db [⟨c, p, some ⟨some v, none⟩⟩] =
      insertOriginalStep true
        (insertTermFieldStep t.id f v (upsertTerm now c (db, emptyStats))).2
        ("undefined") v
        (insertTermFieldStep t.id f v (upsertTerm now c (db, emptyStats))).1 := by
    rw [insert_results, hg]
    simp only [List.foldl_cons, List.foldl_nil]
    rw [processConcept, hft]
    simp only [List.foldl_cons, List.foldl_nil]
    rw [processProp]
    simp only [hf, hv]
    simp
  obtain ⟨tf, htfm, htf1, htf2, htf3, htf4, htf5⟩ :=
    insertTermFieldStep_spec t.id f v (upsertTerm now c (db, emptyStats))
  rw [htf3] at hrun
  obtain ⟨tr, htrm, htr1, htr2, htr3, htr4, htr5, htr6⟩ :=
    insertOriginalStep_spec tf.id ("undefined") v
      (insertTermFieldStep t.id f v (upsertTerm now c (db, emptyStats))).1
  refine ⟨t, ?_, htc, tf, ?_, htf1, htf2, tr, ?_, htr1, htr2, htr3, htr4⟩
  · rw [hrun, htr6, htf5]
    exact List.mem_of_find?_eq_some hft
  · rw [hrun, htr5]
    exact htfm
  · rw [hrun]
    exact htrm

/-- A binding with no `xml:lang` on its value, targeting the definition
field of a fresh concept. -/
def bindNoLang : Binding :=
  ⟨("http://ex/2"), exDefUri, some ⟨some ("deep"), none⟩⟩

theorem no_lang_tag_records_undefined_witness :
    ("http://ex/2" : String) ≠ "" ∧
    isBlank ("deep") = false ∧
    mapFieldUri exDefUri = some exDefUri ∧
    (∃ t ∈ (insert_results 7 true dbSea [bindNoLang]).1.terms,
      t.uri = ("http://ex/2") ∧
      ∃ tf ∈ (insert_results 7 true dbSea [bindNoLang]).1.termFields,
        tf.termId = t.id ∧ tf.fieldUri = exDefUri ∧
        ∃ tr ∈ (insert_results 7 true dbSea [bindNoLang]).1.translations,
          tr.termFieldId = tf.id ∧ tr.language = ("undefined") ∧
          tr.value = ("deep") ∧ tr.status = ("original")) :=
  ⟨by decide, by decide, by decide,
   no_lang_tag_records_undefined 7 dbSea ("http://ex/2") exDefUri ("deep") exDefUri
     (by decide) (by decide) (by decide)⟩

/-! ### Idempotence machinery for claim C3 -/

/-- The identity of a term row, stable across `updated_at` refreshes. -/
def termKey (t : Term) : Nat × String := (t.id, t.uri)

theorem touchTerm_map_termKey (now : Nat) (c : String) (ts : List Term) :
    (touchTerm now c ts).map termKey = ts.map termKey := by
  rw [touchTerm, List.map_map]
  refine List.map_congr_left ?_
  intro t ht
  show termKey (if t.uri == c then { t with updatedAt := now } else t) = termKey t
  split
  · rfl
  · rfl

theorem findTerm_touchTerm_id (now : Nat) (c0 c : String) (ts : List Term) :
    (findTerm (touchTerm now c0 ts) c).map (fun t => t.id) =
      (findTerm ts c).map (fun t => t.id) := by
  induction ts with
  | nil => rfl
  | cons t ts ih =>
    rw [touchTerm, List.map_cons]
    rw [findTerm, findTerm, List.find?_cons, List.find?_cons]
    by_cases h : t.uri == c0
    · rw [if_pos h]
      by_cases h2 : t.uri == c
      · rw [h2]
        rfl
      · rw [Bool.eq_false_iff.mpr h2]
        exact ih
    · rw [if_neg h]
      by_cases h2 : t.uri == c
      · rw [h2]
      · rw [Bool.eq_false_iff.mpr h2]
        exact ih

theorem findTerm_append_some {ts ts' : List Term} {c : String} {t : Term}
    (h : findTerm ts c = some t) : findTerm (ts ++ ts') c = some t := by
  rw [findTerm, List.find?_append]
  rw [findTerm] at h
  rw [h]
  rfl

theorem findTermField_append_some {tfs tfs' : List TermField} {tid : Nat}
    {f : String} {tf : TermField} (h : findTermField tfs tid f = some tf) :
    findTermField (tfs ++ tfs') tid f = some tf := by
  rw [findTermField, List.find?_append]
  rw [findTermField] at h
  rw [h]
  rfl

theorem translationConflict_append {trs trs' : List Translation} {tfId : Nat}
    {lang v s : String} (h : translationConflict trs tfId lang v s = true) :
    translationConflict (trs ++ trs') tfId lang v s = true := by
  rw [translationConflict] at h ⊢
  rw [List.any_append, h]
  rfl

/-- What later merge steps preserve about earlier lookups: a found term
keeps its id, a found term_field row stays found unchanged, and a
translation-key conflict stays a conflict. -/
def MergeLe (d1 d2 : DB) : Prop :=
  (∀ c t1, findTerm d1.terms c = some t1 →
    ∃ t2, findTerm d2.terms c = some t2 ∧ t2.id = t1.id) ∧
  (∀ tid f tf, findTermField d1.termFields tid f = some tf →
    findTermField d2.termFields tid f = some tf) ∧
  (∀ tfId lang v s, translationConflict d1.translations tfId lang v s = true →
    translationConflict d2.translations tfId lang v s = true)

theorem mergeLe_refl (d : DB) : MergeLe d d :=
  ⟨fun _ t1 h => ⟨t1, h, Eq.refl _⟩, fun _ _ _ h => h, fun _ _ _ _ h => h⟩

theorem mergeLe_trans {a b c : DB} (h1 : MergeLe a b) (h2 : MergeLe b c) :
    MergeLe a c := by
  refine ⟨?_, fun tid f tf h => h2.2.1 tid f tf (h1.2.1 tid f tf h),
    fun tfId lang v s h => h2.2.2 tfId lang v s (h1.2.2 tfId lang v s h)⟩
  intro c' t1 h
  obtain ⟨t2, hf2, hid2⟩ := h1.1 c' t1 h
  obtain ⟨t3, hf3, hid3⟩ := h2.1 c' t2 hf2
  exact ⟨t3, hf3, hid3.trans hid2⟩

theorem insertTermFieldStep_le (tid : Nat) (f v : String) (acc : DB × Stats) :
    MergeLe acc.1 (insertTermFieldStep tid f v acc).1.1 := by
  rw [insertTermFieldStep]
  split
  · exact mergeLe_refl _
  · exact ⟨fun c t1 h => ⟨t1, h, Eq.refl _⟩,
      fun tid' f' tf h => findTermField_append_some h,
      fun _ _ _ _ h => h⟩

theorem insertOriginalStep_le (sch : Bool) (tfId : Nat) (lang v : String)
    (acc : DB × Stats) : MergeLe acc.1 (insertOriginalStep sch tfId lang v acc).1 := by
  rw [insertOriginalStep]
  split
  · split
    · exact mergeLe_refl _
    · exact ⟨fun c t1 h => ⟨t1, h, Eq.refl _⟩, fun _ _ _ h => h,
        fun _ _ _ _ h => translationConflict_append h⟩
  · exact mergeLe_refl _

theorem processProp_le (sch : Bool) (tid : Nat) (acc : DB × Stats)
    (pd : PropData) : MergeLe acc.1 (processProp sch tid acc pd).1 := by
  rw [processProp]
  split
  · exact mergeLe_refl _
  next v hv0 =>
    split
    · exact mergeLe_refl _
    · split
      · exact mergeLe_refl _
      next f hf =>
        exact mergeLe_trans (insertTermFieldStep_le tid f v acc)
          (insertOriginalStep_le sch _ pd.language v _)

theorem foldProps_le (sch : Bool) (tid : Nat) (pds : List PropData) :
    ∀ acc : DB × Stats, MergeLe acc.1 ((pds.foldl (processProp sch tid) acc)).1 := by
  induction pds with
  | nil => intro acc; exact mergeLe_refl _
  | cons pd pds ih =>
    intro acc
    exact mergeLe_trans (processProp_le sch tid acc pd) (ih (processProp sch tid acc pd))

theorem upsertTerm_le (now : Nat) (c : String) (acc : DB × Stats) :
    MergeLe acc.1 (upsertTerm now c acc).1 := by
  rw [upsertTerm]
  split
  · refine ⟨?_, fun _ _ _ h => h, fun _ _ _ _ h => h⟩
    intro c' t1 h
    have := findTerm_touchTerm_id now c c' acc.1.terms
    rw [h] at this
    cases hf : findTerm (touchTerm now c acc.1.terms) c' with
    | none => rw [hf] at this; exact Option.noConfusion this
    | some t2 =>
      rw [hf] at this
      exact ⟨t2, rfl, Option.some.inj this⟩
  · refine ⟨?_, fun _ _ _ h => h, fun _ _ _ _ h => h⟩
    intro c' t1 h
    exact ⟨t1, findTerm_append_some h, Eq.refl _⟩

theorem processConcept_le (now : Nat) (sch : Bool) (acc : DB × Stats)
    (cp : String × List PropData) :
    MergeLe acc.1 (processConcept now sch acc cp).1 := by
  rw [processConcept]
  split
  · exact upsertTerm_le now cp.1 acc
  next t ht =>
    exact mergeLe_trans (upsertTerm_le now cp.1 acc) (foldProps_le sch t.id cp.2 _)

theorem foldConcepts_le (now : Nat) (sch : Bool)
    (groups : List (String × List PropData)) :
    ∀ acc : DB × Stats,
      MergeLe acc.1 ((groups.foldl (processConcept now sch) acc)).1 := by
  induction groups with
  | nil => intro acc; exact mergeLe_refl _
  | cons cp groups ih =>
    intro acc
    exact mergeLe_trans (processConcept_le now sch acc cp) (ih (processConcept now sch acc cp))

/-- A property entry is already absorbed by the store: its term_field row
exists and, under the new schema, its `original` translation already
conflicts. -/
def propReady (sch : Bool) (db : DB) (tid : Nat) (pd : PropData) : Prop :=
  ∀ v, pd.value = some v → isBlank v = false →
    ∀ f, mapFieldUri pd.property = some f →
      ∃ tf, findTermField db.termFields tid f = some tf ∧
        (sch = true →
          translationConflict db.translations tf.id pd.language v ("original") = true)

/-- A whole concept group is absorbed: its term exists and every property
entry is absorbed relative to the found term's id. -/
def conceptReady (sch : Bool) (db : DB) (cp : String × List PropData) : Prop :=
  ∃ t, findTerm db.terms cp.1 = some t ∧ ∀ pd ∈ cp.2, propReady sch db t.id pd

theorem propReady_mono {sch : Bool} {d1 d2 : DB} {tid : Nat} {pd : PropData}
    (le : MergeLe d1 d2) (h : propReady sch d1 tid pd) : propReady sch d2 tid pd := by
  intro v hv hb f hf
  obtain ⟨tf, hfind, hconf⟩ := h v hv hb f hf
  exact ⟨tf, le.2.1 tid f tf hfind, fun hs => le.2.2 _ _ _ _ (hconf hs)⟩

theorem conceptReady_mono {sch : Bool} {d1 d2 : DB} {cp : String × List PropData}
    (le : MergeLe d1 d2) (h : conceptReady sch d1 cp) : conceptReady sch d2 cp := by
  obtain ⟨t, hft, hprops⟩ := h
  obtain ⟨t2, hft2, hid⟩ := le.1 cp.1 t hft
  refine ⟨t2, hft2, fun pd hpd => ?_⟩
  rw [hid]
  exact propReady_mono le (hprops pd hpd)

theorem propReady_eq_fields {sch : Bool} {d1 d2 : DB} {tid : Nat} {pd : PropData}
    (hf : d2.termFields = d1.termFields) (ht : d2.translations = d1.translations)
    (h : propReady sch d1 tid pd) : propReady sch d2 tid pd := by
  intro v hv hb f hmap
  rw [hf, ht]
  exact h v hv hb f hmap

/-- An absorbed property entry merges as a no-op. -/
theorem processProp_noop {sch : Bool} {tid : Nat} {acc : DB × Stats} {pd : PropData}
    (h : propReady sch acc.1 tid pd) : processProp sch tid acc pd = acc := by
  rw [processProp]
  split
  · rfl
  next v hval =>
    split
    · rfl
    next hbl =>
      split
      · rfl
      next f hmap =>
        obtain ⟨tf, hfind, hconf⟩ := h v hval (Bool.eq_false_iff.mpr hbl) f hmap
        have h1 : insertTermFieldStep tid f v acc = (acc, tf.id) := by
          rw [insertTermFieldStep, hfind]
        rw [h1]
        cases sch with
        | false => rfl
        | true =>
          rw [insertOriginalStep]
          rw [if_pos (Eq.refl true)]
          rw [hconf (Eq.refl true)]
          rfl

theorem foldProps_noop {sch : Bool} {tid : Nat} {acc : DB × Stats}
    {pds : List PropData}
    (h : ∀ pd ∈ pds, propReady sch acc.1 tid pd) :
    pds.foldl (processProp sch tid) acc = acc := by
  induction pds with
  | nil => rfl
  | cons pd pds ih =>
    rw [List.foldl_cons, processProp_noop (h pd (List.mem_cons_self pd pds))]
    exact ih (fun pd' hpd' => h pd' (List.mem_cons_of_mem pd hpd'))

/-- Merging a property entry leaves it absorbed. -/
theorem processProp_establishes (sch : Bool) (tid : Nat) (acc : DB × Stats)
    (pd : PropData) : propReady sch ((processProp sch tid acc pd)).1 tid pd := by
  intro v hval hbl f hmap
  rw [processProp, hval]
  simp only [hbl, Bool.false_eq_true, if_false, hmap]
  cases hfind : findTermField acc.1.termFields tid f with
  | some tf =>
    have h1 : insertTermFieldStep tid f v acc = (acc, tf.id) := by
      rw [insertTermFieldStep, hfind]
    rw [h1]
    refine ⟨tf, ?_, ?_⟩
    · cases sch with
      | false => exact hfind
      | true =>
        rw [insertOriginalStep]
        rw [if_pos (Eq.refl true)]
        by_cases hc : translationConflict acc.1.translations tf.id pd.language v ("original") = true
        · rw [hc]
          exact hfind
        · rw [Bool.eq_false_iff.mpr hc]
          exact hfind
    · intro hs
      subst hs
      rw [insertOriginalStep]
      rw [if_pos (Eq.refl true)]
      by_cases hc : translationConflict acc.1.translations tf.id pd.language v ("original") = true
      · rw [hc]
        exact hc
      · rw [Bool.eq_false_iff.mpr hc]
        rw [if_neg Bool.false_ne_true]
        rw [translationConflict]
        simp
  | none =>
    have h1 : insertTermFieldStep tid f v acc =
        (({ acc.1 with
             termFields := acc.1.termFields ++
               [(⟨acc.1.nextTermFieldId, tid, f, v⟩ : TermField)],
             nextTermFieldId := acc.1.nextTermFieldId + 1 },
          { acc.2 with termFieldsInserted := acc.2.termFieldsInserted + 1 }),
         acc.1.nextTermFieldId) := by
      rw [insertTermFieldStep, hfind]
    rw [h1]
    have hfind2 : findTermField
        (acc.1.termFields ++ [(⟨acc.1.nextTermFieldId, tid, f, v⟩ : TermField)])
        tid f = some ⟨acc.1.nextTermFieldId, tid, f, v⟩ := by
      rw [findTermField, List.find?_append]
      rw [findTermField] at hfind
      rw [hfind]
      simp
    refine ⟨⟨acc.1.nextTermFieldId, tid, f, v⟩, ?_, ?_⟩
    · cases sch with
      | false => exact hfind2
      | true =>
        rw [insertOriginalStep]
        rw [if_pos (Eq.refl true)]
        by_cases hc : translationConflict
            (acc.1.translations) acc.1.nextTermFieldId pd.language v ("original") = true
        · rw [hc]
          exact hfind2
        · rw [Bool.eq_false_iff.mpr hc]
          exact hfind2
    · intro hs
      subst hs
      rw [insertOriginalStep]
      rw [if_pos (Eq.refl true)]
      by_cases hc : translationConflict
          (acc.1.translations) acc.1.nextTermFieldId pd.language v ("original") = true
      · rw [hc]
        exact hc
      · rw [Bool.eq_false_iff.mpr hc]
        rw [if_neg Bool.false_ne_true]
        rw [translationConflict]
        simp

theorem foldProps_establishes (sch : Bool) (tid : Nat) (pds : List PropData) :
    ∀ acc : DB × Stats, ∀ pd ∈ pds,
      propReady sch ((pds.foldl (processProp sch tid) acc)).1 tid pd := by
  induction pds with
  | nil =>
    intro acc pd h
    exact absurd h (List.not_mem_nil pd)
  | cons pd0 pds ih =>
    intro acc pd hpd
    rw [List.foldl_cons]
    rcases List.mem_cons.mp hpd with rfl | h
    · exact propReady_mono (foldProps_le sch tid pds _)
        (processProp_establishes sch tid acc pd)
    · exact ih _ pd h

theorem processConcept_ready (now : Nat) (sch : Bool) (acc : DB × Stats)
    (cp : String × List PropData) :
    conceptReady sch ((processConcept now sch acc cp)).1 cp := by
  obtain ⟨t, hft, htc⟩ := findTerm_upsert now cp.1 acc
  rw [processConcept, hft]
  show conceptReady sch ((cp.2.foldl (processProp sch t.id) (upsertTerm now cp.1 acc))).1 cp
  refine ⟨t, ?_, ?_⟩
  · rw [(foldProps_shape sch t.id cp.2 (upsertTerm now cp.1 acc)).terms_eq]
    exact hft
  · intro pd hpd
    exact foldProps_establishes sch t.id cp.2 (upsertTerm now cp.1 acc) pd hpd

theorem foldConcepts_ready (now : Nat) (sch : Bool)
    (groups : List (String × List PropData)) :
    ∀ acc : DB × Stats, ∀ cp ∈ groups,
      conceptReady sch ((groups.foldl (processConcept now sch) acc)).1 cp := by
  induction groups with
  | nil =>
    intro acc cp h
    exact absurd h (List.not_mem_nil cp)
  | cons cp0 gs ih =>
    intro acc cp hcp
    rw [List.foldl_cons]
    rcases List.mem_cons.mp hcp with rfl | h
    · exact conceptReady_mono (foldConcepts_le now sch gs _)
        (processConcept_ready now sch acc cp)
    · exact ih _ cp h

/-- An absorbed concept merges as a pure `updated_at` refresh. -/
theorem processConcept_touch {now : Nat} {sch : Bool} {acc : DB × Stats}
    {cp : String × List PropData} (h : conceptReady sch acc.1 cp) :
    processConcept now sch acc cp =
      ({ acc.1 with terms := touchTerm now cp.1 acc.1.terms },
       { acc.2 with termsUpdated := acc.2.termsUpdated + 1 }) := by
  obtain ⟨t, hft, hprops⟩ := h
  have hup : upsertTerm now cp.1 acc =
      ({ acc.1 with terms := touchTerm now cp.1 acc.1.terms },
       { acc.2 with termsUpdated := acc.2.termsUpdated + 1 }) := by
    rw [upsertTerm, hft]
  have hscrut : findTerm (upsertTerm now cp.1 acc).1.terms cp.1 =
      some { t with updatedAt := now } := by
    rw [hup]
    show findTerm (touchTerm now cp.1 acc.1.terms) cp.1 = some { t with updatedAt := now }
    rw [findTerm_touchTerm, hft]
    rfl
  rw [processConcept, hscrut]
  show cp.2.foldl (processProp sch ({ t with updatedAt := now } : Term).id)
      (upsertTerm now cp.1 acc) = _
  have hpr : ∀ pd ∈ cp.2,
      propReady sch (upsertTerm now cp.1 acc).1 t.id pd := by
    intro pd hpd
    refine propReady_eq_fields ?_ ?_ (hprops pd hpd)
    · rw [hup]
    · rw [hup]
  show cp.2.foldl (processProp sch t.id) (upsertTerm now cp.1 acc) = _
  rw [foldProps_noop hpr]
  exact hup

/-- What a second run over absorbed data preserves: everything except
`updated_at` refreshes and the `termsUpdated` counter. -/
structure TouchOnly (old new : DB × Stats) : Prop where
  termFields_eq : new.1.termFields = old.1.termFields
  translations_eq : new.1.translations = old.1.translations
  termKey_eq : new.1.terms.map termKey = old.1.terms.map termKey
  nextTermId_eq : new.1.nextTermId = old.1.nextTermId
  nextTermFieldId_eq : new.1.nextTermFieldId = old.1.nextTermFieldId
  nextTranslationId_eq : new.1.nextTranslationId = old.1.nextTranslationId
  termsInserted_eq : new.2.termsInserted = old.2.termsInserted
  termFieldsInserted_eq : new.2.termFieldsInserted = old.2.termFieldsInserted
  originalsInserted_eq : new.2.originalsInserted = old.2.originalsInserted

theorem touchTerm_le (now : Nat) (c : String) (d : DB) :
    MergeLe d { d with terms := touchTerm now c d.terms } := by
  refine ⟨?_, fun _ _ _ h => h, fun _ _ _ _ h => h⟩
  intro c' t1 h
  have := findTerm_touchTerm_id now c c' d.terms
  rw [h] at this
  cases hf : findTerm (touchTerm now c d.terms) c' with
  | none =>
    rw [hf] at this
    exact Option.noConfusion this
  | some t2 =>
    rw [hf] at this
    exact ⟨t2, rfl, Option.some.inj this⟩

theorem foldConcepts_touch (now : Nat) (sch : Bool)
    (groups : List (String × List PropData)) :
    ∀ acc : DB × Stats, (∀ cp ∈ groups, conceptReady sch acc.1 cp) →
      TouchOnly acc (groups.foldl (processConcept now sch) acc) := by
  induction groups with
  | nil =>
    intro acc h
    exact ⟨rfl, rfl, rfl, rfl, rfl, rfl, rfl, rfl, rfl⟩
  | cons cp gs ih =>
    intro acc h
    rw [List.foldl_cons, processConcept_touch (h cp (List.mem_cons_self cp gs))]
    have h' : ∀ cp' ∈ gs, conceptReady sch
        ({ acc.1 with terms := touchTerm now cp.1 acc.1.terms },
         { acc.2 with termsUpdated := acc.2.termsUpdated + 1 }).1 cp' := by
      intro cp' hcp'
      exact conceptReady_mono (touchTerm_le now cp.1 acc.1)
        (h cp' (List.mem_cons_of_mem cp hcp'))
    obtain ⟨e1, e2, e3, e4, e5, e6, e7, e8, e9⟩ := ih _ h'
    refine ⟨e1, e2, ?_, e4, e5, e6, e7, e8, e9⟩
    rw [e3]
    exact touchTerm_map_termKey now cp.1 acc.1.terms

/-- Claim C3 — harvest-merge is idempotent: a second `insert_results` run
over the same batch with the store unchanged in between adds no terms row,
no term_fields row and no translations row (its insertion counters are all
zero and every table is unchanged up to `updated_at` refreshes on existing
terms). -/
theorem harvest_idempotent (now1 now2 : Nat) (sch : Bool) (db : DB)
    (bs : List Binding) :
    (insert_results now2 sch (insert_results now1 sch db bs).1 bs).1.termFields =
      (insert_results now1 sch db bs).1.termFields ∧
    (insert_results now2 sch (insert_results now1 sch db bs).1 bs).1.translations =
      (insert_results now1 sch db bs).1.translations ∧
    (insert_results now2 sch (insert_results now1 sch db bs).1 bs).1.terms.map termKey =
      (insert_results now1 sch db bs).1.terms.map termKey ∧
    (insert_results now2 sch (insert_results now1 sch db bs).1 bs).2.termsInserted = 0 ∧
    (insert_results now2 sch (insert_results now1 sch db bs).1 bs).2.termFieldsInserted = 0 ∧
    (insert_results now2 sch (insert_results now1 sch db bs).1 bs).2.originalsInserted = 0 := by
  have hready : ∀ cp ∈ groupBindings bs,
      conceptReady sch (insert_results now1 sch db bs).1 cp := by
    intro cp hcp
    exact foldConcepts_ready now1 sch (groupBindings bs) (db, emptyStats) cp hcp
  have h2 := foldConcepts_touch now2 sch (groupBindings bs)
    ((insert_results now1 sch db bs).1, emptyStats) (fun cp hcp => hready cp hcp)
  exact ⟨h2.termFields_eq, h2.translations_eq, h2.termKey_eq,
    h2.termsInserted_eq, h2.termFieldsInserted_eq, h2.originalsInserted_eq⟩

/-! ### Lemmas about the retry fetcher -/

/-- The transient class the retry loop is allowed to retry: an HTTPError
with code 502 (harvest.py:175). -/
def is502 (o : FetchOutcome) : Prop := ∃ m, o = FetchOutcome.http 502 m

instance (o : FetchOutcome) : Decidable (is502 o) :=
  match o with
  | FetchOutcome.ok r => Decidable.isFalse (fun ⟨m, h⟩ => FetchOutcome.noConfusion h)
  | FetchOutcome.exc m => Decidable.isFalse (fun ⟨m', h⟩ => FetchOutcome.noConfusion h)
  | FetchOutcome.http c m =>
    if hc : c = 502 then Decidable.isTrue ⟨m, by rw [hc]⟩
    else Decidable.isFalse (fun ⟨m', h⟩ => by
      injection h with h1 h2
      exact hc h1)

theorem retryAux_ok {oracle : Nat → FetchOutcome} {mr d a f : Nat} {r : String}
    (h : oracle a = FetchOutcome.ok r) :
    retryAux oracle mr d a (f + 1) = (QueryResult.ok r, []) := by
  rw [retryAux, h]

theorem retryAux_exc {oracle : Nat → FetchOutcome} {mr d a f : Nat} {m : String}
    (h : oracle a = FetchOutcome.exc m) :
    retryAux oracle mr d a (f + 1) = (QueryResult.err (sparqlFailMsg m), []) := by
  rw [retryAux, h]

theorem retryAux_http_stop {oracle : Nat → FetchOutcome} {mr d a f c : Nat}
    {m : String} (h : oracle a = FetchOutcome.http c m)
    (hc : ¬ (c = 502 ∧ a < mr - 1)) :
    retryAux oracle mr d a (f + 1) = (QueryResult.err (sparqlFailMsg m), []) := by
  rw [retryAux, h]
  simp [hc]

theorem retryAux_http_retry {oracle : Nat → FetchOutcome} {mr d a f : Nat}
    {m : String} (h : oracle a = FetchOutcome.http 502 m) (ha : a < mr - 1) :
    retryAux oracle mr d a (f + 1) =
      ((retryAux oracle mr d (a + 1) f).1,
       d * 2 ^ a :: (retryAux oracle mr d (a + 1) f).2) := by
  rw [retryAux, h]
  simp [ha]

/-- The delays slept by the retry loop follow the exponential-backoff
schedule from the current attempt on, never outnumber the remaining
retries, and each one is preceded by a 502 outcome. -/
theorem retryAux_trace (oracle : Nat → FetchOutcome) (mr d : Nat) :
    ∀ f a, (retryAux oracle mr d a f).2 =
        (List.range (retryAux oracle mr d a f).2.length).map
          (fun i => d * 2 ^ (a + i)) ∧
      (retryAux oracle mr d a f).2.length ≤ mr - 1 - a ∧
      (∀ i < (retryAux oracle mr d a f).2.length, is502 (oracle (a + i))) := by
  intro f
  induction f with
  | zero =>
    intro a
    exact ⟨rfl, Nat.zero_le _, fun i h => absurd h (Nat.not_lt_zero i)⟩
  | succ f ih =>
    intro a
    cases h : oracle a with
    | ok r =>
      rw [retryAux_ok h]
      exact ⟨rfl, Nat.zero_le _, fun i hi => absurd hi (Nat.not_lt_zero i)⟩
    | exc m =>
      rw [retryAux_exc h]
      exact ⟨rfl, Nat.zero_le _, fun i hi => absurd hi (Nat.not_lt_zero i)⟩
    | http c m =>
      by_cases hca : c = 502 ∧ a < mr - 1
      · have h' : oracle a = FetchOutcome.http 502 m := by
          rw [h, hca.1]
        rw [retryAux_http_retry h' hca.2]
        obtain ⟨e1, e2, e3⟩ := ih (a + 1)
        refine ⟨?_, ?_, ?_⟩
        · show d * 2 ^ a :: (retryAux oracle mr d (a + 1) f).2 =
            (List.range ((retryAux oracle mr d (a + 1) f).2.length + 1)).map
              (fun i => d * 2 ^ (a + i))
          rw [List.range_succ_eq_map, List.map_cons, List.map_map]
          rw [Nat.add_zero]
          refine congrArg (fun l => d * 2 ^ a :: l) ?_
          conv_lhs => rw [e1]
          refine List.map_congr_left ?_
          intro i hi
          show d * 2 ^ (a + 1 + i) = d * 2 ^ (a + (i + 1))
          have hexp : a + 1 + i = a + (i + 1) := by omega
          rw [hexp]
        · show (retryAux oracle mr d (a + 1) f).2.length + 1 ≤ mr - 1 - a
          omega
        · intro i hi
          show is502 (oracle (a + i))
          cases i with
          | zero => exact ⟨m, h'⟩
          | succ i =>
            rw [Nat.add_comm i 1, ← Nat.add_assoc a 1 i]
            refine e3 i ?_
            have : i + 1 < (retryAux oracle mr d (a + 1) f).2.length + 1 := hi
            omega
      · rw [retryAux_http_stop h hca]
        exact ⟨rfl, Nat.zero_le _, fun i hi => absurd hi (Nat.not_lt_zero i)⟩

theorem harvestBatches_abort (fetch : Nat → QueryResult) (post : List Nat)
    (o : Nat) (m : String) :
    ∀ pre : List Nat, (∀ p ∈ pre, ∃ r, fetch p = QueryResult.ok r) →
      fetch o = QueryResult.err m →
      harvestBatches fetch (pre ++ o :: post) = (pre, some m) := by
  intro pre
  induction pre with
  | nil =>
    intro hpre ho
    rw [List.nil_append, harvestBatches, ho]
  | cons p pre ih =>
    intro hpre ho
    obtain ⟨r, hr⟩ := hpre p (List.mem_cons_self p pre)
    rw [List.cons_append, harvestBatches, hr]
    rw [ih (fun p' h' => hpre p' (List.mem_cons_of_mem p h')) ho]

/-- Claim C5 — the paginated fetch retries only on HTTP 502, makes at most
3 attempts (`max_retries`), sleeps `base_delay * 2 ^ attempt` between
attempts, raises immediately on any other error with no further sleep,
raises on exhaustion of the retries, and a failed fetch aborts the whole
batch loop: batches after the failing offset are never merged. -/
theorem retry_policy (oracle : Nat → FetchOutcome) (d : Nat) :
    ((query_sparql_endpoint oracle 3 d).2 =
        (List.range (query_sparql_endpoint oracle 3 d).2.length).map
          (fun i => d * 2 ^ i) ∧
      (query_sparql_endpoint oracle 3 d).2.length ≤ 2) ∧
    (∀ i < (query_sparql_endpoint oracle 3 d).2.length, is502 (oracle i)) ∧
    ((∀ i < 3, is502 (oracle i)) →
      (∃ m, (query_sparql_endpoint oracle 3 d).1 = QueryResult.err m) ∧
      (query_sparql_endpoint oracle 3 d).2.length = 2) ∧
    (∀ i < 3, (∀ j < i, is502 (oracle j)) → ¬ is502 (oracle i) →
      (∀ res, oracle i ≠ FetchOutcome.ok res) →
      (∃ m, (query_sparql_endpoint oracle 3 d).1 = QueryResult.err m) ∧
      (query_sparql_endpoint oracle 3 d).2.length = i) ∧
    (∀ (fetch : Nat → QueryResult) (pre post : List Nat) (o : Nat) (m : String),
      (∀ p ∈ pre, ∃ r, fetch p = QueryResult.ok r) →
      fetch o = QueryResult.err m →
      harvestBatches fetch (pre ++ o :: post) = (pre, some m)) := by
  obtain ⟨e1, e2, e3⟩ := retryAux_trace oracle 3 d 3 0
  refine ⟨⟨?_, ?_⟩, ?_, ?_, ?_, ?_⟩
  · rw [query_sparql_endpoint]
    conv_lhs => rw [e1]
    refine List.map_congr_left ?_
    intro i hi
    show d * 2 ^ (0 + i) = d * 2 ^ i
    rw [Nat.zero_add]
  · exact e2
  · intro i hi
    have := e3 i hi
    rw [Nat.zero_add] at this
    exact this
  · intro hall
    obtain ⟨m0, h0⟩ := hall 0 (by omega)
    obtain ⟨m1, h1⟩ := hall 1 (by omega)
    obtain ⟨m2, h2⟩ := hall 2 (by omega)
    have e0 : retryAux oracle 3 d 0 3 =
        ((retryAux oracle 3 d 1 2).1, d * 2 ^ 0 :: (retryAux oracle 3 d 1 2).2) :=
      retryAux_http_retry h0 (by omega)
    have e1' : retryAux oracle 3 d 1 2 =
        ((retryAux oracle 3 d 2 1).1, d * 2 ^ 1 :: (retryAux oracle 3 d 2 1).2) :=
      retryAux_http_retry h1 (by omega)
    have e2' : retryAux oracle 3 d 2 1 =
        (QueryResult.err (sparqlFailMsg m2), []) :=
      retryAux_http_stop h2 (by omega)
    rw [query_sparql_endpoint, e0, e1', e2']
    exact ⟨⟨sparqlFailMsg m2, rfl⟩, rfl⟩
  · intro i hi h502 hnot hok
    interval_cases i
    · cases h0 : oracle 0 with
      | ok r => exact absurd h0 (hok r)
      | exc m =>
        have e0 : retryAux oracle 3 d 0 3 = (QueryResult.err (sparqlFailMsg m), []) :=
          retryAux_exc h0
        rw [query_sparql_endpoint, e0]
        exact ⟨⟨sparqlFailMsg m, rfl⟩, rfl⟩
      | http c m =>
        have hc : c ≠ 502 := by
          intro hcc
          exact hnot ⟨m, by rw [h0, hcc]⟩
        have e0 : retryAux oracle 3 d 0 3 = (QueryResult.err (sparqlFailMsg m), []) :=
          retryAux_http_stop h0 (fun hh => hc hh.1)
        rw [query_sparql_endpoint, e0]
        exact ⟨⟨sparqlFailMsg m, rfl⟩, rfl⟩
    · obtain ⟨m0, h0⟩ := h502 0 (by omega)
      have e0 : retryAux oracle 3 d 0 3 =
          ((retryAux oracle 3 d 1 2).1, d * 2 ^ 0 :: (retryAux oracle 3 d 1 2).2) :=
        retryAux_http_retry h0 (by omega)
      cases h1 : oracle 1 with
      | ok r => exact absurd h1 (hok r)
      | exc m =>
        have e1' : retryAux oracle 3 d 1 2 = (QueryResult.err (sparqlFailMsg m), []) :=
          retryAux_exc h1
        rw [query_sparql_endpoint, e0, e1']
        exact ⟨⟨sparqlFailMsg m, rfl⟩, rfl⟩
      | http c m =>
        have hc : c ≠ 502 := by
          intro hcc
          exact hnot ⟨m, by rw [h1, hcc]⟩
        have e1' : retryAux oracle 3 d 1 2 = (QueryResult.err (sparqlFailMsg m), []) :=
          retryAux_http_stop h1 (fun hh => hc hh.1)
        rw [query_sparql_endpoint, e0, e1']
        exact ⟨⟨sparqlFailMsg m, rfl⟩, rfl⟩
    · obtain ⟨m0, h0⟩ := h502 0 (by omega)
      obtain ⟨m1, h1⟩ := h502 1 (by omega)
      have e0 : retryAux oracle 3 d 0 3 =
          ((retryAux oracle 3 d 1 2).1, d * 2 ^ 0 :: (retryAux oracle 3 d 1 2).2) :=
        retryAux_http_retry h0 (by omega)
      have e1' : retryAux oracle 3 d 1 2 =
          ((retryAux oracle 3 d 2 1).1, d * 2 ^ 1 :: (retryAux oracle 3 d 2 1).2) :=
        retryAux_http_retry h1 (by omega)
      cases h2 : oracle 2 with
      | ok r => exact absurd h2 (hok r)
      | exc m =>
        have e2' : retryAux oracle 3 d 2 1 = (QueryResult.err (sparqlFailMsg m), []) :=
          retryAux_exc h2
        rw [query_sparql_endpoint, e0, e1', e2']
        exact ⟨⟨sparqlFailMsg m, rfl⟩, rfl⟩
      | http c m =>
        have e2' : retryAux oracle 3 d 2 1 = (QueryResult.err (sparqlFailMsg m), []) :=
          retryAux_http_stop h2 (by omega)
        rw [query_sparql_endpoint, e0, e1', e2']
        exact ⟨⟨sparqlFailMsg m, rfl⟩, rfl⟩
  · intro fetch pre post o m hpre ho
    exact harvestBatches_abort fetch post o m pre hpre ho

theorem retry_policy_witness :
    (∃ m, (query_sparql_endpoint (fun _ => FetchOutcome.http 502 ("proxy")) 3 1).1 =
      QueryResult.err m) ∧
    (query_sparql_endpoint (fun _ => FetchOutcome.http 502 ("proxy")) 3 1).2.length = 2 :=
  (retry_policy (fun _ => FetchOutcome.http 502 ("proxy")) 1).2.2.1
    (fun _ _ => ⟨("proxy"), rfl⟩)

/-! ### Lemmas about the translation selector -/

theorem insertByKey_perm {α : Type} (key : α → Nat) (x : α) (l : List α) :
    (insertByKey key x l).Perm (x :: l) := by
  induction l with
  | nil => exact List.Perm.refl _
  | cons y ys ih =>
    rw [insertByKey]
    split
    · exact List.Perm.refl _
    · exact (List.Perm.cons y ih).trans (List.Perm.swap x y ys)

theorem sortByKey_perm {α : Type} (key : α → Nat) (l : List α) :
    (sortByKey key l).Perm l := by
  induction l with
  | nil => exact List.Perm.refl _
  | cons x xs ih =>
    rw [sortByKey]
    exact (insertByKey_perm key x (sortByKey key xs)).trans (List.Perm.cons x ih)

theorem insertByKey_pairwise {α : Type} (key : α → Nat) (x : α) (l : List α)
    (h : l.Pairwise (fun a b => key a ≤ key b)) :
    (insertByKey key x l).Pairwise (fun a b => key a ≤ key b) := by
  induction l with
  | nil => exact List.pairwise_singleton _ _
  | cons y ys ih =>
    rw [insertByKey]
    rcases List.pairwise_cons.mp h with ⟨hy, hys⟩
    split
    next hle =>
      refine List.pairwise_cons.mpr ⟨?_, h⟩
      intro z hz
      rcases List.mem_cons.mp hz with rfl | hz'
      · exact hle
      · exact Nat.le_trans hle (hy z hz')
    next hgt =>
      refine List.pairwise_cons.mpr ⟨?_, ih hys⟩
      intro z hz
      have hz2 : z ∈ x :: ys := (insertByKey_perm key x ys).mem_iff.mp hz
      rcases List.mem_cons.mp hz2 with rfl | hz'
      · exact Nat.le_of_lt (Nat.lt_of_not_le hgt)
      · exact hy z hz'

theorem sortByKey_pairwise {α : Type} (key : α → Nat) (l : List α) :
    (sortByKey key l).Pairwise (fun a b => key a ≤ key b) := by
  induction l with
  | nil => exact List.Pairwise.nil
  | cons x xs ih =>
    rw [sortByKey]
    exact insertByKey_pairwise key x (sortByKey key xs) ih

/-- The status and source conditions of the selection query. -/
def eligibleRow (sid : Nat) (r : TransRow) : Bool :=
  r.sourceId == sid && r.status == ("review")

/-- With both bounds present, the SQL date condition is exactly an
inclusive bound on the coalesced time. -/
theorem rowMatches_bounds (sid s e : Nat) (r : TransRow) :
    rowMatches sid (some s) (some e) r =
      (eligibleRow sid r && decide (s ≤ coalesceTime r) &&
       decide (coalesceTime r ≤ e)) := by
  cases hm : r.modifiedAt with
  | none => simp [rowMatches, coalesceTime, eligibleRow, hm, Bool.and_assoc]
  | some m => simp [rowMatches, coalesceTime, eligibleRow, hm, Bool.and_assoc]

/-- Claim C6 — with a known cursor, the selection query returns exactly the
`review` rows of the source whose coalesced time lies in the inclusive
range `[cursor, now]`, ordered ascending by that time, and the in-memory
filter then keeps exactly the rows strictly newer than the cursor, so a row
sitting exactly on the cursor is never selected for publication. -/
theorem cursor_selection (rows : List TransRow) (sid cur now : Nat) :
    (query_translations_for_ldes rows sid (some cur) (some now)).Perm
      ((rows.filter (fun r => eligibleRow sid r && decide (cur ≤ coalesceTime r) &&
        decide (coalesceTime r ≤ now))).map toLdesRec) ∧
    (query_translations_for_ldes rows sid (some cur) (some now)).Pairwise
      (fun a b => a.modifiedAt ≤ b.modifiedAt) ∧
    (selectNewTranslations rows sid cur now).Perm
      ((rows.filter (fun r => eligibleRow sid r && decide (cur < coalesceTime r) &&
        decide (coalesceTime r ≤ now))).map toLdesRec) ∧
    (∀ rec ∈ selectNewTranslations rows sid cur now, rec.modifiedAt ≠ cur) := by
  have hfeq : rows.filter (rowMatches sid (some cur) (some now)) =
      rows.filter (fun r => eligibleRow sid r && decide (cur ≤ coalesceTime r) &&
        decide (coalesceTime r ≤ now)) :=
    List.filter_congr (fun r _ => rowMatches_bounds sid cur now r)
  have hperm1 : (query_translations_for_ldes rows sid (some cur) (some now)).Perm
      ((rows.filter (fun r => eligibleRow sid r && decide (cur ≤ coalesceTime r) &&
        decide (coalesceTime r ≤ now))).map toLdesRec) := by
    rw [query_translations_for_ldes, hfeq]
    exact (sortByKey_perm coalesceTime _).map toLdesRec
  refine ⟨hperm1, ?_, ?_, ?_⟩
  · rw [query_translations_for_ldes]
    refine List.pairwise_map.mpr ?_
    refine List.Pairwise.imp ?_ (sortByKey_pairwise coalesceTime _)
    intro a b hab
    exact hab
  · have h2 : (selectNewTranslations rows sid cur now).Perm
        (((rows.filter (fun r => eligibleRow sid r && decide (cur ≤ coalesceTime r) &&
          decide (coalesceTime r ≤ now))).map toLdesRec).filter
            (fun t => decide (cur < t.modifiedAt))) := by
      rw [selectNewTranslations]
      exact hperm1.filter (fun t => decide (cur < t.modifiedAt))
    refine h2.trans ?_
    rw [List.filter_map]
    rw [List.filter_filter]
    have hpt : ∀ r ∈ rows,
        (((fun t => decide (cur < t.modifiedAt)) ∘ toLdesRec) r &&
          (eligibleRow sid r && decide (cur ≤ coalesceTime r) &&
           decide (coalesceTime r ≤ now))) =
        (eligibleRow sid r && decide (cur < coalesceTime r) &&
          decide (coalesceTime r ≤ now)) := by
      intro r hr
      show (decide (cur < coalesceTime r) &&
          (eligibleRow sid r && decide (cur ≤ coalesceTime r) &&
           decide (coalesceTime r ≤ now))) =
        (eligibleRow sid r && decide (cur < coalesceTime r) &&
          decide (coalesceTime r ≤ now))
      by_cases h1 : cur < coalesceTime r
      · have hle : cur ≤ coalesceTime r := Nat.le_of_lt h1
        simp [h1, hle, Bool.and_assoc, Bool.and_comm, Bool.and_left_comm]
      · simp [h1]
    rw [List.filter_congr hpt]
  · intro rec hrec
    rw [selectNewTranslations] at hrec
    have := (List.mem_filter.mp hrec).2
    have hlt : cur < rec.modifiedAt := of_decide_eq_true this
    exact (Nat.ne_of_lt hlt).symm

theorem rowMatches_eligible {sid : Nat} {s e : Option Nat} {r : TransRow}
    (h : rowMatches sid s e r = true) : eligibleRow sid r = true := by
  rw [rowMatches.eq_def] at h
  rw [eligibleRow]
  rw [Bool.and_eq_true] at h
  rw [Bool.and_eq_true] at h
  exact h.1.1

theorem query_empty_of_no_eligible {rows : List TransRow} {sid : Nat}
    (h : rows.filter (eligibleRow sid) = []) :
    ∀ s e, query_translations_for_ldes rows sid s e = [] := by
  intro s e
  rw [query_translations_for_ldes]
  have hfil : rows.filter (rowMatches sid s e) = [] := by
    refine List.filter_eq_nil_iff.mpr ?_
    intro r hr hm
    exact List.filter_eq_nil_iff.mp h r hr (rowMatches_eligible hm)
  rw [hfil]
  rfl

theorem mem_query {rows : List TransRow} {sid : Nat} {s e : Option Nat}
    {rec : LdesRec} (h : rec ∈ query_translations_for_ldes rows sid s e) :
    ∃ r ∈ rows, rowMatches sid s e r = true ∧ rec = toLdesRec r := by
  rw [query_translations_for_ldes] at h
  rcases List.mem_map.mp h with ⟨r, hr, rfl⟩
  have hr2 : r ∈ rows.filter (rowMatches sid s e) :=
    (sortByKey_perm coalesceTime _).mem_iff.mp hr
  rcases List.mem_filter.mp hr2 with ⟨hrows, hmatch⟩
  exact ⟨r, hrows, hmatch, rfl⟩

/-- Claim C7 — a publish run that finds no eligible `review` row (or, with
a known cursor, none strictly newer than it) returns the status string
"skipped" — distinct from "success" — writes no fragment, and leaves the
feed directory exactly as it found it. -/
theorem publish_noop (d : FeedDir) (rows : List TransRow)
    (sources : List SourceRow) (pj : String → Option JsonVal)
    (fp : String → Option FeedDesc) (sid now : Nat) :
    ((rows.filter (eligibleRow sid) = []) →
      (create_or_update_ldes d rows sources pj fp sid now).status = ("skipped") ∧
      (create_or_update_ldes d rows sources pj fp sid now).dir = d ∧
      (create_or_update_ldes d rows sources pj fp sid now).fragment = none) ∧
    (∀ cur, d.present = true → d.hasLatest = true → d.latestModified = some cur →
      (∀ r ∈ rows, eligibleRow sid r = true → coalesceTime r ≤ cur) →
      (create_or_update_ldes d rows sources pj fp sid now).status = ("skipped") ∧
      (create_or_update_ldes d rows sources pj fp sid now).dir = d ∧
      (create_or_update_ldes d rows sources pj fp sid now).fragment = none) ∧
    (("skipped") : String) ≠ ("success") := by
  refine ⟨?_, ?_, by decide⟩
  · intro h
    have hq := query_empty_of_no_eligible h
    rw [create_or_update_ldes]
    split
    · split
      next cur hcur =>
        have hsel : selectNewTranslations rows sid cur now = [] := by
          rw [selectNewTranslations, hq]
          rfl
        rw [hsel]
        exact ⟨rfl, rfl, rfl⟩
      next hcur =>
        rw [hq]
        exact ⟨rfl, rfl, rfl⟩
    · rw [hq]
      exact ⟨rfl, rfl, rfl⟩
  · intro cur hp hl hcur hb
    have hdet1 : (detect_existing_ldes d).1 = true := by
      rw [detect_existing_ldes, hp, hl]
      rfl
    have hdet2 : (detect_existing_ldes d).2 = true := by
      rw [detect_existing_ldes, hp, hl]
      rfl
    have hsel : selectNewTranslations rows sid cur now = [] := by
      rw [selectNewTranslations]
      refine List.filter_eq_nil_iff.mpr ?_
      intro rec hrec hdec
      rcases mem_query hrec with ⟨r, hr, hm, rfl⟩
      have hle : coalesceTime r ≤ cur := hb r hr (rowMatches_eligible hm)
      have hlt : cur < coalesceTime r := of_decide_eq_true hdec
      exact absurd hlt (Nat.not_lt.mpr hle)
    have hres : create_or_update_ldes d rows sources pj fp sid now =
        skippedResult d ("No new translations to publish") := by
      rw [create_or_update_ldes, hdet1, hdet2, hcur]
      show (if (selectNewTranslations rows sid cur now).isEmpty then
          skippedResult d ("No new translations to publish")
        else
          publishFragment d pj fp sources sid now
            (selectNewTranslations rows sid cur now)) =
        skippedResult d ("No new translations to publish")
      rw [hsel]
      rfl
    rw [hres]
    exact ⟨rfl, rfl, rfl⟩

theorem publish_noop_witness :
    (([] : List TransRow).filter (eligibleRow 1) = []) ∧
    ((create_or_update_ldes (⟨true, [100], false, true, some 100000⟩ : FeedDir)
        [] [] (fun _ => none) (fun _ => none) 1 200000).status = ("skipped") ∧
     (create_or_update_ldes (⟨true, [100], false, true, some 100000⟩ : FeedDir)
        [] [] (fun _ => none) (fun _ => none) 1 200000).dir =
       (⟨true, [100], false, true, some 100000⟩ : FeedDir) ∧
     (create_or_update_ldes (⟨true, [100], false, true, some 100000⟩ : FeedDir)
        [] [] (fun _ => none) (fun _ => none) 1 200000).fragment = none) :=
  ⟨rfl,
   (publish_noop (⟨true, [100], false, true, some 100000⟩ : FeedDir) [] []
     (fun _ => none) (fun _ => none) 1 200000).1 rfl⟩

theorem listMax_ne_nil {l : List Nat} (h : l ≠ []) : ∃ m, listMax l = some m := by
  cases l with
  | nil => exact absurd rfl h
  | cons x xs =>
    rw [listMax]
    cases listMax xs with
    | none => exact ⟨x, rfl⟩
    | some m => exact ⟨max x m, rfl⟩

theorem listMax_spec {l : List Nat} {m : Nat} (h : listMax l = some m) :
    m ∈ l ∧ ∀ x ∈ l, x ≤ m := by
  induction l generalizing m with
  | nil => exact Option.noConfusion h
  | cons x xs ih =>
    rw [listMax] at h
    cases h2 : listMax xs with
    | none =>
      rw [h2] at h
      have hxs : xs = [] := by
        cases xs with
        | nil => rfl
        | cons y ys =>
          rw [listMax] at h2
          cases hk : listMax ys with
          | none =>
            rw [hk] at h2
            exact Option.noConfusion h2
          | some k =>
            rw [hk] at h2
            exact Option.noConfusion h2
      subst hxs
      have hm : x = m := Option.some.inj h
      subst hm
      refine ⟨List.mem_singleton_self x, ?_⟩
      intro y hy
      rcases List.mem_singleton.mp hy with rfl
      exact Nat.le_refl _
    | some m' =>
      rw [h2] at h
      have hm : max x m' = m := Option.some.inj h
      obtain ⟨hm'mem, hm'le⟩ := ih h2
      constructor
      · rw [← hm]
        rcases Nat.le_total x m' with hle | hle
        · rw [Nat.max_eq_right hle]
          exact List.mem_cons_of_mem x hm'mem
        · rw [Nat.max_eq_left hle]
          exact List.mem_cons_self x xs
      · intro y hy
        rw [← hm]
        rcases List.mem_cons.mp hy with rfl | hy'
        · exact Nat.le_max_left y m'
        · exact Nat.le_trans (hm'le y hy') (Nat.le_max_right x m')

/-- Counterexample to claim C2 as stated.  A first publish of a single
`review` row modified at 100.7 s creates fragment `100` and a pointer whose
embedded (second-truncated) modification time is 100 s.  The very next run
over the same store selects the row again (100.7 s is strictly above the
recovered 100 s cursor), emits its fragment with epoch 100 into a directory
that already holds fragment 100 — not strictly greater — and links it to
predecessor 100, its own timestamp, not a strictly smaller one. -/
theorem fragment_chain_counterexample :
    ((create_or_update_ldes (⟨false, [], false, false, none⟩ : FeedDir)
        [⟨1, ("mar"), ("es"), ("review"), some 100700, 50000, 1, exDefUri,
          ("definition"), ("sea"), 1, ("http://ex/1"), 1⟩]
        [] (fun _ => none) (fun _ => none) 1 200000).status = ("success") ∧
     (create_or_update_ldes (⟨false, [], false, false, none⟩ : FeedDir)
        [⟨1, ("mar"), ("es"), ("review"), some 100700, 50000, 1, exDefUri,
          ("definition"), ("sea"), 1, ("http://ex/1"), 1⟩]
        [] (fun _ => none) (fun _ => none) 1 200000).fragment = some 100 ∧
     (create_or_update_ldes (⟨false, [], false, false, none⟩ : FeedDir)
        [⟨1, ("mar"), ("es"), ("review"), some 100700, 50000, 1, exDefUri,
          ("definition"), ("sea"), 1, ("http://ex/1"), 1⟩]
        [] (fun _ => none) (fun _ => none) 1 200000).prevFragment = none ∧
     (create_or_update_ldes (⟨false, [], false, false, none⟩ : FeedDir)
        [⟨1, ("mar"), ("es"), ("review"), some 100700, 50000, 1, exDefUri,
          ("definition"), ("sea"), 1, ("http://ex/1"), 1⟩]
        [] (fun _ => none) (fun _ => none) 1 200000).dir =
       (⟨true, [100], false, true, some 100000⟩ : FeedDir)) ∧
    ((create_or_update_ldes (⟨true, [100], false, true, some 100000⟩ : FeedDir)
        [⟨1, ("mar"), ("es"), ("review"), some 100700, 50000, 1, exDefUri,
          ("definition"), ("sea"), 1, ("http://ex/1"), 1⟩]
        [] (fun _ => none) (fun _ => none) 1 200000).status = ("success") ∧
     (create_or_update_ldes (⟨true, [100], false, true, some 100000⟩ : FeedDir)
        [⟨1, ("mar"), ("es"), ("review"), some 100700, 50000, 1, exDefUri,
          ("definition"), ("sea"), 1, ("http://ex/1"), 1⟩]
        [] (fun _ => none) (fun _ => none) 1 200000).fragment = some 100 ∧
     100 ∈ (⟨true, [100], false, true, some 100000⟩ : FeedDir).fragments ∧
     ¬ (∀ g ∈ (⟨true, [100], false, true, some 100000⟩ : FeedDir).fragments,
          g < 100) ∧
     (create_or_update_ldes (⟨true, [100], false, true, some 100000⟩ : FeedDir)
        [⟨1, ("mar"), ("es"), ("review"), some 100700, 50000, 1, exDefUri,
          ("definition"), ("sea"), 1, ("http://ex/1"), 1⟩]
        [] (fun _ => none) (fun _ => none) 1 200000).prevFragment = some 100 ∧
     ¬ (100 : Nat) < 100) := by
  decide

/-- Every publish run either skips, leaving the directory alone, or emits a
fragment built from a non-empty selection. -/
theorem create_result_cases (d : FeedDir) (rows : List TransRow)
    (sources : List SourceRow) (pj : String → Option JsonVal)
    (fp : String → Option FeedDesc) (sid now : Nat) :
    (∃ msg, create_or_update_ldes d rows sources pj fp sid now =
      skippedResult d msg) ∨
    (∃ ts, ts ≠ [] ∧ create_or_update_ldes d rows sources pj fp sid now =
      publishFragment d pj fp sources sid now ts) := by
  rw [create_or_update_ldes]
  split
  · split
    next cur hcur =>
      split
      next hemp => exact Or.inl ⟨_, rfl⟩
      next hemp =>
        refine Or.inr ⟨_, ?_, rfl⟩
        intro h0
        apply hemp
        rw [h0]
        rfl
    next hcur =>
      split
      next hemp => exact Or.inl ⟨_, rfl⟩
      next hemp =>
        refine Or.inr ⟨_, ?_, rfl⟩
        intro h0
        apply hemp
        rw [h0]
        rfl
  · split
    next hemp => exact Or.inl ⟨_, rfl⟩
    next hemp =>
      refine Or.inr ⟨_, ?_, rfl⟩
      intro h0
      apply hemp
      rw [h0]
      rfl

/-- Claim C2, amended — what `create_or_update_ldes` actually guarantees
about the chain: when the latest-pointer cursor is recovered and bounds
every existing fragment name (as in any directory this publisher wrote),
the emitted fragment's epoch is greater than **or equal to** every existing
fragment's timestamp (equality occurs when the newly selected rows fall in
the same whole second as the newest fragment, which is then overwritten),
and the predecessor link always resolves to the maximum existing numeric
fragment timestamp found by the filename scan; the first-ever fragment
carries no predecessor link. -/
theorem fragment_epoch_monotone (d : FeedDir) (rows : List TransRow)
    (sources : List SourceRow) (pj : String → Option JsonVal)
    (fp : String → Option FeedDesc) (sid now : Nat) :
    (∀ cur e, d.present = true → d.hasLatest = true →
      d.latestModified = some cur →
      (∀ g ∈ d.fragments, g * 1000 ≤ cur) →
      (create_or_update_ldes d rows sources pj fp sid now).fragment = some e →
      (∀ g ∈ d.fragments, g ≤ e) ∧
      (create_or_update_ldes d rows sources pj fp sid now).prevFragment =
        listMax d.fragments) ∧
    (∀ e, (create_or_update_ldes d rows sources pj fp sid now).fragment = some e →
      (create_or_update_ldes d rows sources pj fp sid now).prevFragment =
        get_previous_fragment d ∧
      (d.fragments = [] →
        (create_or_update_ldes d rows sources pj fp sid now).prevFragment = none)) := by
  constructor
  · intro cur e hp hl hcur hb hfrag
    have hdet1 : (detect_existing_ldes d).1 = true := by
      rw [detect_existing_ldes, hp, hl]
      rfl
    have hdet2 : (detect_existing_ldes d).2 = true := by
      rw [detect_existing_ldes, hp, hl]
      rfl
    by_cases hemp : (selectNewTranslations rows sid cur now).isEmpty = true
    · have hres : create_or_update_ldes d rows sources pj fp sid now =
          skippedResult d ("No new translations to publish") := by
        rw [create_or_update_ldes, hdet1, hdet2, hcur]
        show (if (selectNewTranslations rows sid cur now).isEmpty then
            skippedResult d ("No new translations to publish")
          else
            publishFragment d pj fp sources sid now
              (selectNewTranslations rows sid cur now)) =
          skippedResult d ("No new translations to publish")
        rw [hemp]
        rfl
      rw [hres] at hfrag
      exact Option.noConfusion hfrag
    · have hres : create_or_update_ldes d rows sources pj fp sid now =
          publishFragment d pj fp sources sid now
            (selectNewTranslations rows sid cur now) := by
        rw [create_or_update_ldes, hdet1, hdet2, hcur]
        show (if (selectNewTranslations rows sid cur now).isEmpty then
            skippedResult d ("No new translations to publish")
          else
            publishFragment d pj fp sources sid now
              (selectNewTranslations rows sid cur now)) =
          publishFragment d pj fp sources sid now
            (selectNewTranslations rows sid cur now)
        rw [Bool.eq_false_iff.mpr hemp]
        rfl
      rw [hres] at hfrag
      have hepoch : publishEpoch (selectNewTranslations rows sid cur now) now = e :=
        Option.some.inj hfrag
      have hne : selectNewTranslations rows sid cur now ≠ [] := by
        intro h0
        rw [h0] at hemp
        exact hemp rfl
      have hmapne : (selectNewTranslations rows sid cur now).map
          (fun t => t.modifiedAt) ≠ [] := by
        intro h0
        exact hne (List.map_eq_nil_iff.mp h0)
      obtain ⟨m, hlm⟩ := listMax_ne_nil hmapne
      obtain ⟨hmmem, _⟩ := listMax_spec hlm
      rcases List.mem_map.mp hmmem with ⟨rec, hrecmem, hrecm⟩
      have hcurlt : cur < m := by
        rw [selectNewTranslations] at hrecmem
        have := (List.mem_filter.mp hrecmem).2
        have hlt : cur < rec.modifiedAt := of_decide_eq_true this
        rw [hrecm] at hlt
        exact hlt
      have he : m / 1000 = e := by
        rw [publishEpoch, hlm] at hepoch
        exact hepoch
      constructor
      · intro g hg
        have h1 : g * 1000 ≤ cur := hb g hg
        have h2 : g * 1000 ≤ m := Nat.le_of_lt (Nat.lt_of_le_of_lt h1 hcurlt)
        have h3 : g ≤ m / 1000 := (Nat.le_div_iff_mul_le (by omega)).mpr h2
        rw [he] at h3
        exact h3
      · rw [hres]
        show get_previous_fragment d = listMax d.fragments
        rw [get_previous_fragment, hp]
        rfl
  · intro e hfrag
    rcases create_result_cases d rows sources pj fp sid now with ⟨msg, hres⟩ | ⟨ts, _, hres⟩
    · rw [hres] at hfrag
      exact Option.noConfusion hfrag
    · rw [hres]
      refine ⟨rfl, fun hfr => ?_⟩
      show get_previous_fragment d = none
      rw [get_previous_fragment, hfr]
      split
      · rfl
      · rfl

theorem fragment_epoch_monotone_witness :
    ((⟨true, [100], false, true, some 100000⟩ : FeedDir).present = true ∧
     (⟨true, [100], false, true, some 100000⟩ : FeedDir).hasLatest = true ∧
     (⟨true, [100], false, true, some 100000⟩ : FeedDir).latestModified = some 100000 ∧
     (∀ g ∈ (⟨true, [100], false, true, some 100000⟩ : FeedDir).fragments,
        g * 1000 ≤ 100000) ∧
     (create_or_update_ldes (⟨true, [100], false, true, some 100000⟩ : FeedDir)
        [⟨1, ("mar"), ("es"), ("review"), some 100700, 50000, 1, exDefUri,
          ("definition"), ("sea"), 1, ("http://ex/1"), 1⟩]
        [] (fun _ => none) (fun _ => none) 1 200000).fragment = some 100) ∧
    ((∀ g ∈ (⟨true, [100], false, true, some 100000⟩ : FeedDir).fragments, g ≤ 100) ∧
     (create_or_update_ldes (⟨true, [100], false, true, some 100000⟩ : FeedDir)
        [⟨1, ("mar"), ("es"), ("review"), some 100700, 50000, 1, exDefUri,
          ("definition"), ("sea"), 1, ("http://ex/1"), 1⟩]
        [] (fun _ => none) (fun _ => none) 1 200000).prevFragment =
       listMax (⟨true, [100], false, true, some 100000⟩ : FeedDir).fragments) :=
  ⟨⟨rfl, rfl, rfl, by decide, by decide⟩,
   (fragment_epoch_monotone (⟨true, [100], false, true, some 100000⟩ : FeedDir)
      [⟨1, ("mar"), ("es"), ("review"), some 100700, 50000, 1, exDefUri,
        ("definition"), ("sea"), 1, ("http://ex/1"), 1⟩]
      [] (fun _ => none) (fun _ => none) 1 200000).1
     100000 100 rfl rfl rfl (by decide) (by decide)⟩

/-! ### Claims about the harvest preflight (C8) -/

/-- Counterexample to claim C8 as stated.  With only the `terms` table
present — `term_fields`, `translations` and `sources` all absent — the
preflight passes and the upstream count query is issued: the schema check
at harvest.py:383-386 probes only `terms`, so absence of the other three
required tables is not detected before harvest activity. -/
theorem schema_check_counterexample :
    harvestPreflight ("https://vocab.nerc.ac.uk/collection/P01/current/")
        true [("terms")] = PreflightOutcome.fetchIssued ∧
    ("term_fields") ∉ [("terms")] ∧
    ("translations") ∉ [("terms")] ∧
    ("sources") ∉ [("terms")] := by
  decide

/-- Claim C8, amended — the preflight fails fast with a schema error before
any upstream fetch only for the `terms` table: given a valid collection URI
and an existing database file, the fetch is issued exactly when `terms` is
present, regardless of whether `term_fields`, `translations` or `sources`
exist; when `terms` is absent the run stops with the schema error before
any fetch (and hence before any write). -/
theorem schema_check_terms_only (uri : String) (tables : List String)
    (hval : validate_collection_uri uri = Except.ok ()) :
    (harvestPreflight uri true tables = PreflightOutcome.fetchIssued ↔
      ("terms") ∈ tables) ∧
    (("terms") ∉ tables →
      harvestPreflight uri true tables = PreflightOutcome.schemaError) := by
  have hbase : harvestPreflight uri true tables =
      (if !(tables.contains ("terms")) then PreflightOutcome.schemaError
       else PreflightOutcome.fetchIssued) := by
    rw [harvestPreflight, hval]
    rfl
  constructor
  · constructor
    · intro h
      rw [hbase] at h
      by_cases hc : tables.contains ("terms")
      · exact List.mem_of_elem_eq_true hc
      · rw [Bool.eq_false_iff.mpr hc] at h
        exact absurd h (by decide)
    · intro h
      rw [hbase]
      have hc : tables.contains ("terms") = true :=
        List.elem_eq_true_of_mem h
      rw [hc]
      rfl
  · intro h
    rw [hbase]
    have hc : tables.contains ("terms") = false := by
      refine Bool.eq_false_iff.mpr ?_
      intro hc
      exact h (List.mem_of_elem_eq_true hc)
    rw [hc]
    rfl

theorem schema_check_terms_only_witness :
    (validate_collection_uri ("https://vocab.nerc.ac.uk/collection/P01/current/") =
      Except.ok ()) ∧
    ((harvestPreflight ("https://vocab.nerc.ac.uk/collection/P01/current/") true
        [("sources"), ("translations")] = PreflightOutcome.fetchIssued ↔
      ("terms") ∈ [("sources"), ("translations")]) ∧
     (("terms") ∉ [("sources"), ("translations")] →
      harvestPreflight ("https://vocab.nerc.ac.uk/collection/P01/current/") true
        [("sources"), ("translations")] = PreflightOutcome.schemaError)) :=
  ⟨rfl,
   schema_check_terms_only ("https://vocab.nerc.ac.uk/collection/P01/current/")
     [("sources"), ("translations")] rfl⟩

/-! ### Claims about fragment metadata resolution (C9) -/

/-- Counterexample to claim C9 as stated.  The claimed three-tier fallback
(explicit configuration, then remote feed, then defaults) would resolve the
timestamp path of a source whose configuration declares one; the code's
`extract_ldes_paths_from_source` never reads `translation_config` — its
signature does not even consult the parsed configuration — and returns the
hard-coded defaults for this non-LDES source, disagreeing with the
spec-modelled resolution at this concrete input. -/
theorem ldes_paths_counterexample :
    extract_ldes_paths_from_source (fun _ => none)
        [⟨1, ("Static_file"), some ("http://remote/feed"), some ("cfg")⟩] 1 =
      (default_timestamp, default_versionof) ∧
    extract_ldes_paths_spec
        (fun s => if s = ("cfg") then
            some (JsonVal.obj
              [(("timestampPath"), JsonVal.str ("http://example.org/customTS"))])
          else none)
        (fun _ => none)
        [⟨1, ("Static_file"), some ("http://remote/feed"), some ("cfg")⟩] 1 =
      (("http://example.org/customTS"), default_versionof) ∧
    extract_ldes_paths_from_source (fun _ => none)
        [⟨1, ("Static_file"), some ("http://remote/feed"), some ("cfg")⟩] 1 ≠
      extract_ldes_paths_spec
        (fun s => if s = ("cfg") then
            some (JsonVal.obj
              [(("timestampPath"), JsonVal.str ("http://example.org/customTS"))])
          else none)
        (fun _ => none)
        [⟨1, ("Static_file"), some ("http://remote/feed"), some ("cfg")⟩] 1 := by
  refine ⟨rfl, rfl, ?_⟩
  intro h
  have h1 : default_timestamp = ("http://example.org/customTS") :=
    congrArg Prod.fst h
  exact absurd h1 (by decide)

/-- Claim C9, amended — the two metadata kinds are resolved by different
two-tier fallbacks, not a common three-tier one.  The timestamp-path and
version-of-path identifiers come only from the source's remote feed
description — fetched just when `source_type` is 'LDES' and a non-empty
`source_path` exists — with the hard-coded defaults covering a missing
source row, a non-LDES type, a missing path, a fetch or parse failure, and
empty found values; the source's explicit configuration is never consulted
for them.  The declared member types come only from `translation_config`
with the empty list as default, and no network access is involved in their
resolution. -/
theorem metadata_fallback (pj : String → Option JsonVal)
    (fp : String → Option FeedDesc) (sources : List SourceRow) (sid : Nat)
    (s : SourceRow) :
    (findSource sources sid = some s → s.sourceType ≠ ("LDES") →
      extract_ldes_paths_from_source fp sources sid =
        (default_timestamp, default_versionof)) ∧
    (findSource sources sid = some s → ∀ p, s.sourcePath = some p →
      fp p = none →
      extract_ldes_paths_from_source fp sources sid =
        (default_timestamp, default_versionof)) ∧
    (findSource sources sid = some s → s.sourceType = ("LDES") →
      ∀ p, s.sourcePath = some p → p ≠ "" → ∀ g, fp p = some g →
      extract_ldes_paths_from_source fp sources sid =
        ((match g.timestampPath with
          | none => default_timestamp
          | some v => if v = "" then default_timestamp else v),
         (match g.versionOfPath with
          | none => default_versionof
          | some v => if v = "" then default_versionof else v))) ∧
    (∀ cfg, extract_ldes_paths_from_source fp
        [{ s with translationConfig := cfg }] sid =
      extract_ldes_paths_from_source fp [s] sid) ∧
    (findSource sources sid = some s → s.translationConfig = none →
      extract_types_from_source pj sources sid = []) ∧
    (findSource sources sid = some s → ∀ cfgStr kvs xs,
      s.translationConfig = some cfgStr → cfgStr ≠ "" →
      pj cfgStr = some (JsonVal.obj kvs) →
      jsonLookup kvs ("types") = some (JsonVal.arr xs) →
      extract_types_from_source pj sources sid = xs.filterMap typeEntry) := by
  refine ⟨?_, ?_, ?_, ?_, ?_, ?_⟩
  · intro hfind ht
    simp only [extract_ldes_paths_from_source, hfind]
    rw [if_pos ht]
  · intro hfind p hp hfp
    simp only [extract_ldes_paths_from_source, hfind]
    by_cases ht : s.sourceType = ("LDES")
    · rw [if_neg (fun hne => hne ht)]
      simp only [hp]
      by_cases hpe : p = ""
      · rw [if_pos hpe]
      · rw [if_neg hpe, hfp]
    · rw [if_pos ht]
  · intro hfind ht p hp hpe g hg
    simp only [extract_ldes_paths_from_source, hfind]
    rw [if_neg (fun hne => hne ht)]
    simp only [hp]
    rw [if_neg hpe, hg]
  · intro cfg
    simp only [extract_ldes_paths_from_source, findSource, List.find?]
    by_cases hid : s.sourceId == sid
    · rw [hid]
    · rw [Bool.eq_false_iff.mpr hid]
  · intro hfind hcfg
    simp only [extract_types_from_source, hfind, hcfg]
  · intro hfind cfgStr kvs xs hcfg hne hpj hty
    simp only [extract_types_from_source, hfind, hcfg]
    rw [if_neg hne, hpj]
    simp only [hty]

theorem metadata_fallback_witness :
    (findSource [(⟨1, ("LDES"), some ("http://remote/feed"), none⟩ : SourceRow)] 1 =
      some (⟨1, ("LDES"), some ("http://remote/feed"), none⟩ : SourceRow)) ∧
    ((⟨1, ("LDES"), some ("http://remote/feed"), none⟩ : SourceRow).sourcePath =
      some ("http://remote/feed")) ∧
    ((fun _ => (none : Option FeedDesc)) ("http://remote/feed") = none) ∧
    extract_ldes_paths_from_source (fun _ => none)
        [(⟨1, ("LDES"), some ("http://remote/feed"), none⟩ : SourceRow)] 1 =
      (default_timestamp, default_versionof) :=
  ⟨rfl, rfl, rfl,
   (metadata_fallback (fun _ => none) (fun _ => none)
      [(⟨1, ("LDES"), some ("http://remote/feed"), none⟩ : SourceRow)] 1
      (⟨1, ("LDES"), some ("http://remote/feed"), none⟩ : SourceRow)).2.1
     rfl ("http://remote/feed") rfl rfl⟩

end MTT
